import Mathlib

/-!
# R-tree (`src/src.cpp`): embedding and verification

The C++ source keeps a tree of heap-allocated `RTreeNode`s, each owned by exactly one
parent, and mutates it in place through raw pointers.  The embedding below is
state-passing:

* a finite `double` is a rational number; `min`, `max` and the comparisons are exact on
  doubles, and the result of every `+`, `-` and `*` is rounded to the nearest double,
  ties to even, by `fl` (IEEE 754 binary64, each operation rounded on its own, no fused
  multiply-add).  NaN, infinities and overflow beyond the largest finite double are not
  modelled; `std::numeric_limits<double>::max()` is the rational `DBL_MAX`;
* the object graph is the inductive tree `RTreeNode`; a pointer to a node that lives
  inside the tree is the list of child indices leading to it from the root (`[]` is the
  root itself), so `node == root` is `path = []`;
* `int maxChildren` is an `Int`; the comparisons of a `size_t` with it convert it to
  `size_t` first, which is `sizeT` (reduction modulo `2 ^ 64`);
* a function whose C++ body can loop forever, or read an index variable that was never
  assigned, returns `Option`: `none` stands for "no defined result" (fuel exhausted or
  undefined behaviour).
-/

namespace RTreeSpec

/-! ## Data model -/

/-- Source `struct Rect` (lines 4-7): four coordinates, no validation in the constructor. -/
structure Rect where
  minX : ℚ
  minY : ℚ
  maxX : ℚ
  maxY : ℚ
deriving DecidableEq

/-- Source `struct RTreeNode` (lines 9-18): a rectangle and the owned children. -/
inductive RTreeNode where
  | mk (rect : Rect) (children : List RTreeNode)

/-- Field `rect` of a node. -/
def RTreeNode.rect : RTreeNode → Rect
  | .mk r _ => r

/-- Field `children` of a node. -/
def RTreeNode.children : RTreeNode → List RTreeNode
  | .mk _ cs => cs

/-- Source `class RTree` (lines 20-42): the root pointer (`nullptr` is `none`) and the
capacity. -/
structure RTree where
  root : Option RTreeNode
  maxChildren : Int

/-- Constructor `RTree(int maxChildren_)` (line 22): stores the argument, `root` starts
as `nullptr`.  There is no check of the argument. -/
def RTree.new (maxChildren_ : Int) : RTree :=
  { root := none, maxChildren := maxChildren_ }

/-- Value of `std::numeric_limits<double>::max()`: `(2 ^ 53 - 1) * 2 ^ 971`. -/
def DBL_MAX : ℚ := (2 ^ 53 - 1) * 2 ^ 971

/-- Conversion of an `int` to `size_t` (64 bit), as done by the usual arithmetic
conversions when an `int` is compared with `children.size()`. -/
def sizeT (i : Int) : Nat := (i % 2 ^ 64).toNat

/-- The test `node->children.size() > maxChildren` (line 63). -/
def exceeds (size : Nat) (maxChildren : Int) : Bool :=
  decide (sizeT maxChildren < size)

/-! ## Double arithmetic -/

/-- Round a rational to the nearest integer, ties to the even integer. -/
def roundHalfEven (y : ℚ) : ℤ :=
  if y - ⌊y⌋ < 1 / 2 then ⌊y⌋
  else if 1 / 2 < y - ⌊y⌋ then ⌊y⌋ + 1
  else if ⌊y⌋ % 2 = 0 then ⌊y⌋ else ⌊y⌋ + 1

/-- Spacing of the doubles around `x`: `2 ^ (e - 52)` where `2 ^ e <= |x| < 2 ^ (e + 1)`,
and the subnormal spacing `2 ^ (-1074)` below `2 ^ (-1022)`. -/
def ulp (x : ℚ) : ℚ := (2 : ℚ) ^ (max (Int.log 2 |x|) (-1022) - 52)

/-- The double that an arithmetic operation with exact result `x` returns: `x` rounded
to the nearest multiple of the spacing at `x`, ties to even (53-bit significand). -/
def fl (x : ℚ) : ℚ := roundHalfEven (x / ulp x) * ulp x

/-! ## Bounding-box arithmetic (lines 131-151, 177-179) -/

/-- Source `calcEnlargement` (lines 131-137), formula copied literally: the product of the
two rounded differences, then the eight subtractions from left to right, each rounded. -/
def calcEnlargement (rect1 rect2 : Rect) : ℚ :=
  let maxX := max rect1.maxX rect2.maxX
  let minX := min rect1.minX rect2.minX
  let maxY := max rect1.maxY rect2.maxY
  let minY := min rect1.minY rect2.minY
  fl (fl (fl (fl (fl (fl (fl (fl (fl (fl (maxX - minX) * fl (maxY - minY))
    - rect1.maxX) - rect1.minX) - rect1.maxY) - rect1.minY)
    - rect2.maxX) - rect2.minX) - rect2.maxY) - rect2.minY)

/-- Source `calcDistance` (lines 139-143): four rounded differences, two rounded products
and one rounded sum. -/
def calcDistance (rect1 rect2 : Rect) : ℚ :=
  let dx := max 0 (max (fl (rect1.minX - rect2.maxX)) (fl (rect2.minX - rect1.maxX)))
  let dy := max 0 (max (fl (rect1.minY - rect2.maxY)) (fl (rect2.minY - rect1.maxY)))
  fl (fl (dx * dx) + fl (dy * dy))

/-- Source `mergeRects` (lines 145-151). -/
def mergeRects (rect1 rect2 : Rect) : Rect :=
  { minX := min rect1.minX rect2.minX
    minY := min rect1.minY rect2.minY
    maxX := max rect1.maxX rect2.maxX
    maxY := max rect1.maxY rect2.maxY }

/-- Source `rectOverlap` (lines 177-179). -/
def rectOverlap (rect1 rect2 : Rect) : Bool :=
  decide (rect1.minX ≤ rect2.maxX) && decide (rect1.maxX ≥ rect2.minX) &&
    decide (rect1.minY ≤ rect2.maxY) && decide (rect1.maxY ≥ rect2.minY)

/-! ## Search (lines 32-38, 163-175) -/

mutual
/-- Source `searchRect` (lines 163-175); the reference parameter `results` is passed in
and returned. -/
def searchRect (node : RTreeNode) (rect : Rect) (results : List Rect) : List Rect :=
  match node with
  | .mk r cs =>
    match cs with
    | [] => if rectOverlap r rect then results ++ [r] else results
    | _ :: _ => searchChildren cs rect results
termination_by structural node
/-- The `for (RTreeNode* child : node->children)` loop of `searchRect` (lines 169-173). -/
def searchChildren (children : List RTreeNode) (rect : Rect) (results : List Rect) :
    List Rect :=
  match children with
  | [] => results
  | child :: rest =>
    searchChildren rest rect
      (if rectOverlap child.rect rect then searchRect child rect results else results)
termination_by structural children
end

/-- Source `RTree::search` (lines 32-38). -/
def RTree.search (t : RTree) (rect : Rect) : List Rect :=
  match t.root with
  | none => []
  | some root => searchRect root rect []

/-! ## Pointers into the tree -/

/-- The node a path points to. -/
def nodeAt : RTreeNode → List Nat → Option RTreeNode
  | n, [] => some n
  | n, i :: p =>
    match n.children[i]? with
    | some c => nodeAt c p
    | none => none

/-- Apply an in-place update to the node a path points to. -/
def modifyAt : RTreeNode → List Nat → (RTreeNode → RTreeNode) → RTreeNode
  | n, [], f => f n
  | n, i :: p, f =>
    match n.children[i]? with
    | some c => .mk n.rect (n.children.set i (modifyAt c p f))
    | none => n

/-! ## Insertion and split (lines 24-30, 44-129, 153-161) -/

/-- The child-choice loop of `insertRect` (lines 50-58): `i` is the loop counter,
`bestIndex` and `bestEnlargement` the two loop variables. -/
def chooseLoop (rect : Rect) : List RTreeNode → Nat → Nat → ℚ → Nat
  | [], _, bestIndex, _ => bestIndex
  | c :: cs, i, bestIndex, bestEnlargement =>
    if calcEnlargement c.rect rect < bestEnlargement then
      chooseLoop rect cs (i + 1) i (calcEnlargement c.rect rect)
    else
      chooseLoop rect cs (i + 1) bestIndex bestEnlargement

/-- The index `bestIndex` after the loop of lines 50-58. -/
def chooseChild (children : List RTreeNode) (rect : Rect) : Nat :=
  chooseLoop rect children 0 0 DBL_MAX

/-- The loop of `findBestChild` (lines 122-128); `index` is `none` while the caller's
variable has not been assigned. -/
def findBestLoop (rect : Rect) : List RTreeNode → Nat → Option Nat → ℚ → Option Nat
  | [], _, index, _ => index
  | c :: cs, i, index, bestEnlargement =>
    if calcEnlargement c.rect rect < bestEnlargement then
      findBestLoop rect cs (i + 1) (some i) (calcEnlargement c.rect rect)
    else
      findBestLoop rect cs (i + 1) index bestEnlargement

/-- Source `findBestChild` (lines 120-129): the caller passes an unassigned `index`. -/
def findBestChild (children : List RTreeNode) (rect : Rect) : Option Nat :=
  findBestLoop rect children 0 none DBL_MAX

/-- Inner loop of `findSeeds` (lines 109-116) for a fixed `i`: `rest` are the children
at the indices `j, j + 1, ...`; the state is `(seed1, seed2)` (`none` while unassigned)
and `maxDistance`. -/
def findSeedsInner (recti : Rect) (i : Nat) :
    List RTreeNode → Nat → Option (Nat × Nat) × ℚ → Option (Nat × Nat) × ℚ
  | [], _, st => st
  | c :: cs, j, st =>
    if calcDistance recti c.rect > st.2 then
      findSeedsInner recti i cs (j + 1) (some (i, j), calcDistance recti c.rect)
    else
      findSeedsInner recti i cs (j + 1) st

/-- Outer loop of `findSeeds` (lines 108-117): `rest` are the children at the indices
`i, i + 1, ...`. -/
def findSeedsOuter :
    List RTreeNode → Nat → Option (Nat × Nat) × ℚ → Option (Nat × Nat) × ℚ
  | [], _, st => st
  | c :: cs, i, st => findSeedsOuter cs (i + 1) (findSeedsInner c.rect i cs (i + 1) st)

/-- Source `findSeeds` (lines 106-118): the pair `(seed1, seed2)`, or `none` when the
body never assigns the two variables. -/
def findSeeds (children : List RTreeNode) : Option (Nat × Nat) :=
  (findSeedsOuter children 0 (none, 0)).1

/-- The `while` loop of `splitNode` (lines 83-103) on the two child lists; the rects of
the two nodes do not change inside the loop.  Returns `none` when the fuel runs out or
`findBestChild` leaves `index` unassigned. -/
def splitLoop (maxChildren : Int) (nodeRect newRect : Rect) :
    Nat → List RTreeNode → List RTreeNode → Option (List RTreeNode × List RTreeNode)
  | 0, _, _ => none
  | fuel + 1, nodeChildren, newChildren =>
    if nodeChildren.isEmpty then
      some (nodeChildren, newChildren)
    else if nodeChildren.length + newChildren.length = sizeT (maxChildren + 1) then
      some ([], newChildren ++ nodeChildren)
    else if nodeChildren.length > newChildren.length then
      match findBestChild nodeChildren newRect with
      | none => none
      | some index =>
        match nodeChildren[index]? with
        | none => none
        | some child =>
          splitLoop maxChildren nodeRect newRect fuel
            (nodeChildren.eraseIdx index) (newChildren ++ [child])
    else
      match findBestChild newChildren nodeRect with
      | none => none
      | some index =>
        match newChildren[index]? with
        | none => none
        | some child =>
          splitLoop maxChildren nodeRect newRect fuel
            (nodeChildren ++ [child]) (newChildren.eraseIdx index)

/-- Source `splitNode` (lines 76-104): returns the updated `node` and `newNode`. -/
def splitNode (maxChildren : Int) (fuel : Nat) (node newNode : RTreeNode) :
    Option (RTreeNode × RTreeNode) :=
  match findSeeds node.children with
  | none => none
  | some (seed1, seed2) =>
    match node.children[seed2]?, node.children[seed1]? with
    | some c2, some c1 =>
      match splitLoop maxChildren c1.rect c2.rect fuel node.children newNode.children with
      | none => none
      | some (nodeChildren, newChildren) =>
        some (.mk c1.rect nodeChildren, .mk c2.rect newChildren)
    | _, _ => none

mutual
/-- Source `adjustRect` (lines 153-161).  `newRect` is `newNode->rect`; it is read at
every visited node and stays the same during the traversal (the only visited node whose
rect it is, `newNode` itself, is merged with its own rect). -/
def adjustRect (node : RTreeNode) (newRect : Rect) : RTreeNode :=
  match node with
  | .mk r cs => .mk (mergeRects r newRect) (adjustChildren cs newRect)
termination_by structural node
/-- The `for` loop of `adjustRect` (lines 158-160). -/
def adjustChildren (children : List RTreeNode) (newRect : Rect) : List RTreeNode :=
  match children with
  | [] => []
  | child :: rest => adjustRect child newRect :: adjustChildren rest newRect
termination_by structural children
end

/-- Source `insertRect` (lines 44-74).  `root` is the whole tree (the member `root`),
`path` points to the argument `node` inside it; the result is the member `root` when
the call returns.  One unit of fuel is used per recursive call; the rest is handed to
the loop of `splitNode`. -/
def insertRect (maxChildren : Int) :
    Nat → RTreeNode → List Nat → Rect → Option RTreeNode
  | 0, _, _, _ => none
  | fuel + 1, root, path, rect =>
    match nodeAt root path with
    | none => none
    | some node =>
      let inserted : Option RTreeNode :=
        if node.children.isEmpty then
          some (modifyAt root path (fun n => .mk n.rect (n.children ++ [.mk rect []])))
        else
          match insertRect maxChildren fuel root
              (path ++ [chooseChild node.children rect]) rect with
          | none => none
          | some root1 =>
            some (modifyAt root1 path (fun n => .mk (mergeRects n.rect rect) n.children))
      match inserted with
      | none => none
      | some root2 =>
        match nodeAt root2 path with
        | none => none
        | some node2 =>
          if exceeds node2.children.length maxChildren then
            match splitNode maxChildren fuel node2 (.mk ⟨0, 0, 0, 0⟩ []) with
            | none => none
            | some (node3, newNode) =>
              let root3 := modifyAt root2 path (fun _ => node3)
              let root4 := if path = [] then RTreeNode.mk ⟨0, 0, 0, 0⟩ [root3] else root3
              let root5 := RTreeNode.mk root4.rect (root4.children ++ [newNode])
              some (adjustRect root5 newNode.rect)
          else
            some root2

/-- Source `RTree::insert` (lines 24-30). -/
def RTree.insert (fuel : Nat) (t : RTree) (rect : Rect) : Option RTree :=
  match t.root with
  | none => some { t with root := some (.mk rect []) }
  | some root =>
    match insertRect t.maxChildren fuel root [] rect with
    | none => none
    | some root1 => some { t with root := some root1 }

/-- A sequence of `insert` calls, one per rectangle, in list order. -/
def insertAll (fuel : Nat) : RTree → List Rect → Option RTree
  | t, [] => some t
  | t, r :: rs =>
    match t.insert fuel r with
    | none => none
    | some t1 => insertAll fuel t1 rs

/-! ## Observations on trees, used to state the properties -/

mutual
/-- All nodes of a subtree, the node itself first, then its descendants child by child. -/
def nodes (node : RTreeNode) : List RTreeNode :=
  match node with
  | .mk r cs => .mk r cs :: nodesList cs
termination_by structural node
/-- All nodes of a list of subtrees. -/
def nodesList (children : List RTreeNode) : List RTreeNode :=
  match children with
  | [] => []
  | child :: rest => nodes child ++ nodesList rest
termination_by structural children
end

mutual
/-- Number of nodes on the longest path from a node down to a leaf. -/
def depth (node : RTreeNode) : Nat :=
  match node with
  | .mk _ cs => depthList cs + 1
termination_by structural node
/-- Largest depth among a list of subtrees (`0` for the empty list). -/
def depthList (children : List RTreeNode) : Nat :=
  match children with
  | [] => 0
  | child :: rest => max (depth child) (depthList rest)
termination_by structural children
end

/-- The rects of the leaves (nodes without children) of a subtree, left to right. -/
def leafRects (node : RTreeNode) : List Rect :=
  ((nodes node).filter (fun n => n.children.isEmpty)).map RTreeNode.rect

/-- The rects of the leaves of the whole tree (none for the empty tree). -/
def RTree.leafRects (t : RTree) : List Rect :=
  match t.root with
  | none => []
  | some root => RTreeSpec.leafRects root

/-- Depth of the whole tree (`0` for the empty tree). -/
def RTree.depth (t : RTree) : Nat :=
  match t.root with
  | none => 0
  | some root => RTreeSpec.depth root

/-- The size test of line 63 is false at every node of the subtree. -/
def noOverflow (maxChildren : Int) (node : RTreeNode) : Bool :=
  (nodes node).all (fun n => !exceeds n.children.length maxChildren)

/-- The size test of line 63 is false at every node of the tree, for the tree's own
`maxChildren`. -/
def RTree.noOverflow (t : RTree) : Bool :=
  match t.root with
  | none => true
  | some root => RTreeSpec.noOverflow t.maxChildren root

/-- Capacity predicate on a subtree: no node has more than `maxChildren` children. -/
def capacityOK (maxChildren : Int) (node : RTreeNode) : Bool :=
  (nodes node).all (fun n => decide ((n.children.length : Int) ≤ maxChildren))

/-- Capacity predicate on the whole tree, for the tree's own `maxChildren`. -/
def RTree.capacityOK (t : RTree) : Bool :=
  match t.root with
  | none => true
  | some root => RTreeSpec.capacityOK t.maxChildren root

/-- Rectangle `outer` contains rectangle `inner`: minima `<=`, maxima `>=`. -/
def rectContains (outer inner : Rect) : Bool :=
  decide (outer.minX ≤ inner.minX) && decide (outer.minY ≤ inner.minY) &&
    decide (inner.maxX ≤ outer.maxX) && decide (inner.maxY ≤ outer.maxY)

/-- Containment predicate on a subtree: the rect of every node contains the rect of
every leaf below that node (the node itself included when it is a leaf). -/
def containmentOK (node : RTreeNode) : Bool :=
  (nodes node).all (fun n => (leafRects n).all (fun l => rectContains n.rect l))

/-- Containment predicate on the whole tree (true for the empty tree). -/
def RTree.containmentOK (t : RTree) : Bool :=
  match t.root with
  | none => true
  | some root => RTreeSpec.containmentOK root

/-- A rectangle is well formed when `minX <= maxX` and `minY <= maxY`. -/
def Rect.wellFormed (r : Rect) : Prop := r.minX ≤ r.maxX ∧ r.minY ≤ r.maxY

/-- Insertion without the split branch, as a function of the subtree alone: the effect
of lines 44-62 on `node` when no node on the way overflows.  The first argument bounds
the recursion depth. -/
def insertPure (rect : Rect) : Nat → RTreeNode → RTreeNode
  | 0, n => n
  | k + 1, n =>
    if n.children.isEmpty then
      .mk n.rect (n.children ++ [.mk rect []])
    else
      match n.children[chooseChild n.children rect]? with
      | some c =>
        .mk (mergeRects n.rect rect)
          (n.children.set (chooseChild n.children rect) (insertPure rect k c))
      | none => n

/-- Area of a rectangle: `(maxX - minX) * (maxY - minY)`. -/
def area (x : Rect) : ℚ := (x.maxX - x.minX) * (x.maxY - x.minY)

/-- The point `(x, y)` lies in the closed rectangle `r`. -/
def Rect.hasPoint (r : Rect) (x y : ℚ) : Prop :=
  r.minX ≤ x ∧ x ≤ r.maxX ∧ r.minY ≤ y ∧ y ≤ r.maxY

/-- The `mergeRects`-union of the rects of a list of nodes, left to right; `none` for the
empty list, which has no union. -/
def unionRects : List RTreeNode → Option Rect
  | [] => none
  | c :: cs => some (cs.foldl (fun acc d => mergeRects acc d.rect) c.rect)

/-- `RTree::insert` restricted to lines 24-30 and 44-62: the body of `insertRect` without
the branch of lines 63-73, so without any call of `splitNode`. -/
def RTree.insertNoSplit (fuel : Nat) (t : RTree) (rect : Rect) : RTree :=
  match t.root with
  | none => { t with root := some (.mk rect []) }
  | some root => { t with root := some (insertPure rect fuel root) }

/-- A sequence of `insertNoSplit` calls, one per rectangle, in list order. -/
def insertAllNoSplit (fuel : Nat) : RTree → List Rect → RTree
  | t, [] => t
  | t, r :: rs => insertAllNoSplit fuel (t.insertNoSplit fuel r) rs

/-- Chain predicate on a subtree: every node has at most one child. -/
def isChain (node : RTreeNode) : Bool :=
  (nodes node).all (fun n => decide (n.children.length ≤ 1))

/-- State of the loops of `findSeeds` that is consistent with the children `all`: either
no pair was assigned and `maxDistance` is `0`, or the assigned pair `(a, b)` has `a < b`,
both are indices of children, and `maxDistance` is their positive distance. -/
def SeedsGood (all : List RTreeNode) (st : Option (Nat × Nat) × ℚ) : Prop :=
  match st.1 with
  | none => st.2 = 0
  | some (a, b) =>
    a < b ∧ ∃ ca cb, all[a]? = some ca ∧ all[b]? = some cb ∧
      calcDistance ca.rect cb.rect = st.2 ∧ 0 < st.2

/-- In the state `st`, `maxDistance` bounds the distance of every pair `(a, b)` that the
loops of `findSeeds` visit before the pair `(i, j)`. -/
def SeedsBound (all : List RTreeNode) (st : Option (Nat × Nat) × ℚ) (i j : Nat) : Prop :=
  ∀ (a b : Nat) (ca cb : RTreeNode), a < b → all[a]? = some ca → all[b]? = some cb →
    (a < i ∨ (a = i ∧ b < j)) → calcDistance ca.rect cb.rect ≤ st.2

/-- The rational `y` is a finite double: rounding leaves it unchanged and it lies within
the finite range. -/
def isDouble (y : ℚ) : Prop := fl y = y ∧ |y| ≤ DBL_MAX

/-- None of the seven operations of `calcDistance(a, b)` rounds: the exact results of the
four differences, of the two products and of the sum are finite doubles. -/
def calcDistanceExact (a b : Rect) : Prop :=
  isDouble (a.minX - b.maxX) ∧ isDouble (b.minX - a.maxX) ∧
    isDouble (a.minY - b.maxY) ∧ isDouble (b.minY - a.maxY) ∧
    isDouble (max 0 (max (a.minX - b.maxX) (b.minX - a.maxX)) *
      max 0 (max (a.minX - b.maxX) (b.minX - a.maxX))) ∧
    isDouble (max 0 (max (a.minY - b.maxY) (b.minY - a.maxY)) *
      max 0 (max (a.minY - b.maxY) (b.minY - a.maxY))) ∧
    isDouble (max 0 (max (a.minX - b.maxX) (b.minX - a.maxX)) *
        max 0 (max (a.minX - b.maxX) (b.minX - a.maxX)) +
      max 0 (max (a.minY - b.maxY) (b.minY - a.maxY)) *
        max 0 (max (a.minY - b.maxY) (b.minY - a.maxY)))

/-! ## Lemmas on paths -/

@[simp] theorem rect_mk (r : Rect) (cs : List RTreeNode) : (RTreeNode.mk r cs).rect = r := rfl

@[simp] theorem children_mk (r : Rect) (cs : List RTreeNode) :
    (RTreeNode.mk r cs).children = cs := rfl

theorem mk_eta (n : RTreeNode) : RTreeNode.mk n.rect n.children = n := by
  cases n; rfl

theorem nodeAt_append (q : List Nat) :
    ∀ (p : List Nat) (root : RTreeNode),
      nodeAt root (p ++ q) = (nodeAt root p).bind (fun n => nodeAt n q) := by
  intro p
  induction p with
  | nil => intro root; simp [nodeAt]
  | cons i p ih =>
    intro root
    simp only [List.cons_append, nodeAt]
    cases h : root.children[i]? with
    | none => simp
    | some c => simpa using ih c

theorem nodeAt_modifyAt (f : RTreeNode → RTreeNode) :
    ∀ (p : List Nat) (root n : RTreeNode),
      nodeAt root p = some n → nodeAt (modifyAt root p f) p = some (f n) := by
  intro p
  induction p with
  | nil => intro root n h; simp [nodeAt] at h; simp [nodeAt, modifyAt, h]
  | cons i p ih =>
    intro root n h
    simp only [nodeAt] at h
    cases hc : root.children[i]? with
    | none => simp [hc] at h
    | some c =>
      simp only [hc] at h
      have hi : i < root.children.length := (List.getElem?_eq_some.1 hc).1
      simp only [modifyAt, hc, nodeAt, children_mk, List.getElem?_set_self hi]
      exact ih c n h

theorem modifyAt_modifyAt (f g : RTreeNode → RTreeNode) :
    ∀ (p : List Nat) (root : RTreeNode),
      modifyAt (modifyAt root p f) p g = modifyAt root p (fun n => g (f n)) := by
  intro p
  induction p with
  | nil => intro root; simp [modifyAt]
  | cons i p ih =>
    intro root
    cases hc : root.children[i]? with
    | none => simp [modifyAt, hc]
    | some c =>
      have hi : i < root.children.length := (List.getElem?_eq_some.1 hc).1
      simp only [modifyAt, hc, children_mk, rect_mk, List.getElem?_set_self hi,
        List.set_set, ih c]

theorem modifyAt_append (f : RTreeNode → RTreeNode) (q : List Nat) :
    ∀ (p : List Nat) (root : RTreeNode),
      modifyAt root (p ++ q) f = modifyAt root p (fun n => modifyAt n q f) := by
  intro p
  induction p with
  | nil => intro root; simp [modifyAt]
  | cons i p ih =>
    intro root
    cases hc : root.children[i]? with
    | none => simp [modifyAt, hc]
    | some c => simp [modifyAt, hc, ih c]

theorem modifyAt_congr (f g : RTreeNode → RTreeNode) :
    ∀ (p : List Nat) (root n : RTreeNode),
      nodeAt root p = some n → f n = g n → modifyAt root p f = modifyAt root p g := by
  intro p
  induction p with
  | nil => intro root n h e; simp [nodeAt] at h; simp [modifyAt, h, e]
  | cons i p ih =>
    intro root n h e
    simp only [nodeAt] at h
    cases hc : root.children[i]? with
    | none => simp [modifyAt, hc]
    | some c =>
      simp only [hc] at h
      simp [modifyAt, hc, ih c n h e]

/-! ## Lemmas on the observations -/

/-- Induction on trees: a property holds for every node if it holds for a node whenever
it holds for all its children. -/
theorem RTreeNode.induct_children (P : RTreeNode → Prop)
    (step : ∀ (r : Rect) (cs : List RTreeNode), (∀ c ∈ cs, P c) → P (.mk r cs)) :
    ∀ n, P n := by
  intro n
  exact @RTreeNode.rec P (fun cs => ∀ c ∈ cs, P c)
    (fun r cs ih => step r cs ih)
    (by intro c hc; cases hc)
    (by
      intro c cs hc hcs x hx
      rcases List.mem_cons.1 hx with rfl | hx
      · exact hc
      · exact hcs x hx) n

theorem nodes_mk (r : Rect) (cs : List RTreeNode) :
    nodes (.mk r cs) = .mk r cs :: nodesList cs := by
  rw [nodes]

theorem mem_nodesList (n : RTreeNode) :
    ∀ cs : List RTreeNode, n ∈ nodesList cs ↔ ∃ c ∈ cs, n ∈ nodes c := by
  intro cs
  induction cs with
  | nil => simp [nodesList]
  | cons c cs ih => simp [nodesList, ih]

theorem mem_nodes (n m : RTreeNode) :
    n ∈ nodes m ↔ n = m ∨ ∃ c ∈ m.children, n ∈ nodes c := by
  cases m with
  | mk r cs => simp [nodes_mk, mem_nodesList]

theorem self_mem_nodes (n : RTreeNode) : n ∈ nodes n :=
  (mem_nodes n n).2 (Or.inl rfl)

theorem depth_mk (r : Rect) (cs : List RTreeNode) : depth (.mk r cs) = depthList cs + 1 := by
  rw [depth]

theorem depth_eq (n : RTreeNode) : depth n = depthList n.children + 1 := by
  cases n with
  | mk r cs => simp [depth_mk]

theorem depth_le_depthList (c : RTreeNode) :
    ∀ cs : List RTreeNode, c ∈ cs → depth c ≤ depthList cs := by
  intro cs
  induction cs with
  | nil => intro h; cases h
  | cons d cs ih =>
    intro h
    rw [depthList]
    rcases List.mem_cons.1 h with rfl | h
    · exact le_max_left _ _
    · exact le_trans (ih h) (le_max_right _ _)

theorem depthList_le (d : Nat) :
    ∀ cs : List RTreeNode, (∀ c ∈ cs, depth c ≤ d) → depthList cs ≤ d := by
  intro cs
  induction cs with
  | nil => intro _; simp [depthList]
  | cons c cs ih =>
    intro h
    rw [depthList]
    exact max_le (h c (List.mem_cons_self _ _))
      (ih (fun x hx => h x (List.mem_cons_of_mem _ hx)))

theorem noOverflow_iff (mc : Int) (n : RTreeNode) :
    noOverflow mc n = true ↔ ∀ m ∈ nodes n, exceeds m.children.length mc = false := by
  simp [noOverflow, List.all_eq_true]

theorem noOverflow_child (mc : Int) (n c : RTreeNode) (h : noOverflow mc n = true)
    (hc : c ∈ n.children) : noOverflow mc c = true := by
  rw [noOverflow_iff] at h ⊢
  intro m hm
  exact h m ((mem_nodes m n).2 (Or.inr ⟨c, hc, hm⟩))

theorem chooseLoop_bound (rect : Rect) :
    ∀ (cs : List RTreeNode) (i bestIndex : Nat) (bestEnlargement : ℚ),
      chooseLoop rect cs i bestIndex bestEnlargement = bestIndex ∨
        (i ≤ chooseLoop rect cs i bestIndex bestEnlargement ∧
          chooseLoop rect cs i bestIndex bestEnlargement < i + cs.length) := by
  intro cs
  induction cs with
  | nil => intro i b e; simp [chooseLoop]
  | cons c cs ih =>
    intro i b e
    rw [chooseLoop]
    split
    · rcases ih (i + 1) i (calcEnlargement c.rect rect) with h | ⟨h1, h2⟩
      · right; rw [h]; simp
      · right; simp only [List.length_cons]; omega
    · rcases ih (i + 1) b e with h | ⟨h1, h2⟩
      · left; exact h
      · right; simp only [List.length_cons]; omega

theorem chooseChild_lt (rect : Rect) (cs : List RTreeNode) (h : cs ≠ []) :
    chooseChild cs rect < cs.length := by
  have hpos : 0 < cs.length := List.length_pos.2 h
  rcases chooseLoop_bound rect cs 0 0 DBL_MAX with h1 | ⟨_, h2⟩
  · unfold chooseChild; rw [h1]; exact hpos
  · unfold chooseChild; simpa using h2

/-! ## Insertion into a tree within capacity never splits -/

theorem insertPure_succ_leaf (rect : Rect) (k : Nat) (n : RTreeNode)
    (h : n.children = []) :
    insertPure rect (k + 1) n = .mk n.rect [.mk rect []] := by
  simp [insertPure, h]

theorem insertPure_succ_inner (rect : Rect) (k : Nat) (n c : RTreeNode)
    (h : n.children ≠ []) (hc : n.children[chooseChild n.children rect]? = some c) :
    insertPure rect (k + 1) n =
      .mk (mergeRects n.rect rect)
        (n.children.set (chooseChild n.children rect) (insertPure rect k c)) := by
  simp [insertPure, h, hc]

theorem insertRect_noSplit (mc : Int) (rect : Rect) (h1 : exceeds 1 mc = false) :
    ∀ (fuel : Nat) (root : RTreeNode) (path : List Nat) (node : RTreeNode),
      nodeAt root path = some node → noOverflow mc node = true → depth node ≤ fuel →
      insertRect mc fuel root path rect = some (modifyAt root path (insertPure rect fuel)) := by
  intro fuel
  induction fuel with
  | zero =>
    intro root path node _ _ hd
    have := depth_eq node
    omega
  | succ k ih =>
    intro root path node hn hcap hd
    rw [insertRect]
    simp only [hn]
    by_cases hempty : node.children = []
    · have e := nodeAt_modifyAt (fun n => .mk n.rect (n.children ++ [.mk rect []]))
        path root node hn
      simp only [hempty, List.isEmpty_nil, if_true, e, children_mk, List.nil_append,
        List.length_singleton, h1, Bool.false_eq_true, if_false]
      congr 1
      apply modifyAt_congr _ _ path root node hn
      rw [insertPure_succ_leaf rect k node hempty, hempty]
      rfl
    · have hi := chooseChild_lt rect node.children hempty
      have hget : node.children[chooseChild node.children rect]? =
          some (node.children[chooseChild node.children rect]) :=
        List.getElem?_eq_getElem hi
      have hmem : node.children[chooseChild node.children rect] ∈ node.children :=
        List.getElem_mem hi
      have hnc : nodeAt root (path ++ [chooseChild node.children rect]) =
          some (node.children[chooseChild node.children rect]) := by
        rw [nodeAt_append, hn]
        simp [nodeAt, hget]
      have hdc : depth (node.children[chooseChild node.children rect]) ≤ k := by
        have := depth_le_depthList _ _ hmem
        have := depth_eq node
        omega
      have hrec := ih root (path ++ [chooseChild node.children rect]) _ hnc
        (noOverflow_child mc node _ hcap hmem) hdc
      have hne : node.children.isEmpty = false := by
        cases hcs : node.children with
        | nil => exact absurd hcs hempty
        | cons _ _ => rfl
      simp only [hne, Bool.false_eq_true, if_false, hrec]
      rw [modifyAt_append, modifyAt_modifyAt]
      have e := nodeAt_modifyAt
        (fun n => RTreeNode.mk
          (mergeRects (modifyAt n [chooseChild node.children rect] (insertPure rect k)).rect
            rect)
          (modifyAt n [chooseChild node.children rect] (insertPure rect k)).children)
        path root node hn
      simp only [e]
      have hnode : modifyAt node [chooseChild node.children rect] (insertPure rect k) =
          .mk node.rect (node.children.set (chooseChild node.children rect)
            (insertPure rect k (node.children[chooseChild node.children rect]))) := by
        simp [modifyAt, hget]
      have hex : exceeds node.children.length mc = false :=
        (noOverflow_iff mc node).1 hcap node (self_mem_nodes node)
      simp only [hnode, children_mk, rect_mk, List.length_set, hex, Bool.false_eq_true,
        if_false]
      congr 1
      apply modifyAt_congr _ _ path root node hn
      simp only [hnode, children_mk, rect_mk]
      rw [insertPure_succ_inner rect k node _ hempty hget]

theorem exceeds_zero (mc : Int) : exceeds 0 mc = false := by
  simp [exceeds]

theorem sizeT_of_range (mc : Int) (h0 : 0 ≤ mc) (hmax : mc ≤ 2147483647) :
    sizeT mc = mc.toNat := by
  unfold sizeT
  rw [Int.emod_eq_of_lt h0 (by omega)]

theorem exceeds_one (mc : Int) (h1 : 1 ≤ mc) (hmax : mc ≤ 2147483647) :
    exceeds 1 mc = false := by
  simp only [exceeds, decide_eq_false_iff_not, not_lt]
  rw [sizeT_of_range mc (by omega) hmax]
  omega

theorem mem_leafRects (x : Rect) (n : RTreeNode) :
    x ∈ leafRects n ↔ ∃ m ∈ nodes n, m.children = [] ∧ m.rect = x := by
  simp [leafRects, List.isEmpty_iff, and_assoc]

theorem mem_leafRects_iff (x : Rect) (n : RTreeNode) :
    x ∈ leafRects n ↔
      (n.children = [] ∧ n.rect = x) ∨ ∃ c ∈ n.children, x ∈ leafRects c := by
  rw [mem_leafRects]
  constructor
  · rintro ⟨m, hm, h1, h2⟩
    rcases (mem_nodes m n).1 hm with rfl | ⟨c, hc, hmc⟩
    · exact Or.inl ⟨h1, h2⟩
    · exact Or.inr ⟨c, hc, (mem_leafRects x c).2 ⟨m, hmc, h1, h2⟩⟩
  · rintro (⟨h1, h2⟩ | ⟨c, hc, hx⟩)
    · exact ⟨n, self_mem_nodes n, h1, h2⟩
    · rcases (mem_leafRects x c).1 hx with ⟨m, hm, h1, h2⟩
      exact ⟨m, (mem_nodes m n).2 (Or.inr ⟨c, hc, hm⟩), h1, h2⟩

theorem insertPure_noOverflow (mc : Int) (rect : Rect) (h1 : exceeds 1 mc = false) :
    ∀ (k : Nat) (n : RTreeNode), noOverflow mc n = true →
      noOverflow mc (insertPure rect k n) = true := by
  intro k
  induction k with
  | zero => intro n h; simpa [insertPure] using h
  | succ k ih =>
    intro n h
    by_cases hempty : n.children = []
    · rw [insertPure_succ_leaf rect k n hempty, noOverflow_iff]
      intro m hm
      simp only [nodes_mk, nodesList, List.append_nil, List.mem_cons, List.mem_singleton,
        List.not_mem_nil, or_false] at hm
      rcases hm with rfl | rfl
      · simpa using h1
      · simpa using exceeds_zero mc
    · have hi := chooseChild_lt rect n.children hempty
      have hget : n.children[chooseChild n.children rect]? =
          some (n.children[chooseChild n.children rect]) :=
        List.getElem?_eq_getElem hi
      have hmem : n.children[chooseChild n.children rect] ∈ n.children :=
        List.getElem_mem hi
      rw [insertPure_succ_inner rect k n _ hempty hget, noOverflow_iff]
      intro m hm
      rcases (mem_nodes m _).1 hm with rfl | ⟨c, hc, hmc⟩
      · simpa using (noOverflow_iff mc n).1 h n (self_mem_nodes n)
      · simp only [children_mk] at hc
        rcases List.mem_or_eq_of_mem_set hc with hc | rfl
        · exact (noOverflow_iff mc c).1 (noOverflow_child mc n c h hc) m hmc
        · exact (noOverflow_iff mc _).1 (ih _ (noOverflow_child mc n _ h hmem)) m hmc

theorem insertPure_depth (rect : Rect) :
    ∀ (k : Nat) (n : RTreeNode), depth (insertPure rect k n) ≤ depth n + 1 := by
  intro k
  induction k with
  | zero => intro n; simp [insertPure]
  | succ k ih =>
    intro n
    by_cases hempty : n.children = []
    · rw [insertPure_succ_leaf rect k n hempty, depth_eq n, hempty]
      simp [depth_mk, depthList]
    · have hi := chooseChild_lt rect n.children hempty
      have hget : n.children[chooseChild n.children rect]? =
          some (n.children[chooseChild n.children rect]) :=
        List.getElem?_eq_getElem hi
      have hmem : n.children[chooseChild n.children rect] ∈ n.children :=
        List.getElem_mem hi
      rw [insertPure_succ_inner rect k n _ hempty hget, depth_mk, depth_eq n]
      have hle : depthList (n.children.set (chooseChild n.children rect)
          (insertPure rect k (n.children[chooseChild n.children rect]))) ≤
          depthList n.children + 1 := by
        apply depthList_le
        intro c hc
        rcases List.mem_or_eq_of_mem_set hc with hc | rfl
        · exact le_trans (depth_le_depthList c _ hc) (Nat.le_succ _)
        · exact le_trans (ih _) (Nat.succ_le_succ (depth_le_depthList _ _ hmem))
      omega

theorem insertPure_leafRects (rect : Rect) :
    ∀ (k : Nat) (n : RTreeNode) (x : Rect),
      x ∈ leafRects (insertPure rect k n) → x = rect ∨ x ∈ leafRects n := by
  intro k
  induction k with
  | zero => intro n x h; right; simpa [insertPure] using h
  | succ k ih =>
    intro n x h
    by_cases hempty : n.children = []
    · rw [insertPure_succ_leaf rect k n hempty, mem_leafRects_iff] at h
      simp only [children_mk, List.cons_ne_nil, false_and, List.mem_singleton, exists_eq_left,
        false_or] at h
      rw [mem_leafRects_iff] at h
      simp only [children_mk, rect_mk, true_and, List.not_mem_nil, false_and, exists_false,
        or_false] at h
      exact Or.inl h.symm
    · have hi := chooseChild_lt rect n.children hempty
      have hget : n.children[chooseChild n.children rect]? =
          some (n.children[chooseChild n.children rect]) :=
        List.getElem?_eq_getElem hi
      have hmem : n.children[chooseChild n.children rect] ∈ n.children :=
        List.getElem_mem hi
      rw [insertPure_succ_inner rect k n _ hempty hget, mem_leafRects_iff] at h
      simp only [children_mk, rect_mk] at h
      rcases h with ⟨h0, _⟩ | ⟨c, hc, hx⟩
      · exact absurd h0 (by simpa using hempty)
      · rcases List.mem_or_eq_of_mem_set hc with hc | rfl
        · exact Or.inr ((mem_leafRects_iff x n).2 (Or.inr ⟨c, hc, hx⟩))
        · rcases ih _ x hx with h | h
          · exact Or.inl h
          · exact Or.inr ((mem_leafRects_iff x n).2 (Or.inr ⟨_, hmem, h⟩))

/-! ## Search returns only overlapping leaf rects -/

theorem searchChildren_sound (q : Rect) :
    ∀ cs : List RTreeNode,
      (∀ c ∈ cs, ∀ (acc : List Rect) (x : Rect), x ∈ searchRect c q acc →
        x ∈ acc ∨ (rectOverlap x q = true ∧ x ∈ leafRects c)) →
      ∀ (acc : List Rect) (x : Rect), x ∈ searchChildren cs q acc →
        x ∈ acc ∨ ∃ c ∈ cs, rectOverlap x q = true ∧ x ∈ leafRects c := by
  intro cs
  induction cs with
  | nil => intro _ acc x h; left; simpa [searchChildren] using h
  | cons c cs ih =>
    intro hc acc x h
    rw [searchChildren] at h
    rcases ih (fun d hd => hc d (List.mem_cons_of_mem _ hd)) _ x h with h | ⟨d, hd, h⟩
    · split at h
      · rcases hc c (List.mem_cons_self _ _) acc x h with h | h
        · exact Or.inl h
        · exact Or.inr ⟨c, List.mem_cons_self _ _, h⟩
      · exact Or.inl h
    · exact Or.inr ⟨d, List.mem_cons_of_mem _ hd, h⟩

theorem searchRect_sound (q : Rect) :
    ∀ (n : RTreeNode) (acc : List Rect) (x : Rect), x ∈ searchRect n q acc →
      x ∈ acc ∨ (rectOverlap x q = true ∧ x ∈ leafRects n) := by
  intro n
  induction n using RTreeNode.induct_children with
  | step r cs ih =>
    intro acc x h
    cases cs with
    | nil =>
      rw [searchRect] at h
      split at h
      · rename_i hov
        rcases List.mem_append.1 h with h | h
        · exact Or.inl h
        · have hx : x = r := by simpa using h
          subst hx
          exact Or.inr ⟨hov, (mem_leafRects_iff _ _).2 (Or.inl ⟨rfl, rfl⟩)⟩
      · exact Or.inl h
    | cons c cs =>
      rw [searchRect] at h
      rcases searchChildren_sound q (c :: cs) ih acc x h with h | ⟨d, hd, h1, h2⟩
      · exact Or.inl h
      · exact Or.inr ⟨h1, (mem_leafRects_iff _ _).2 (Or.inr ⟨d, hd, h2⟩)⟩

/-! ## Invariant of a sequence of inserts -/

/-- What holds of a tree along a sequence of inserts when nothing overflows: the capacity
predicate, a bound on the depth, and every leaf rect is one of `seen`. -/
def TreeInv (mc : Int) (t : RTree) (seen : List Rect) (d : Nat) : Prop :=
  t.maxChildren = mc ∧ t.noOverflow = true ∧ t.depth ≤ d ∧ ∀ x ∈ t.leafRects, x ∈ seen

theorem insert_of_noOverflow (t : RTree) (rect : Rect) (fuel : Nat)
    (h1 : exceeds 1 t.maxChildren = false) (hcap : t.noOverflow = true)
    (hd : t.depth ≤ fuel) :
    t.insert fuel rect =
      some { t with root := some (match t.root with
        | none => .mk rect []
        | some root => insertPure rect fuel root) } := by
  cases t with
  | mk root mc =>
    cases root with
    | none => simp [RTree.insert]
    | some root =>
      simp only [RTree.noOverflow, RTree.depth] at hcap hd
      simp only [RTree.insert]
      rw [insertRect_noSplit mc rect h1 fuel root [] root (by simp [nodeAt]) hcap hd]
      simp [modifyAt]

theorem insert_TreeInv (mc : Int) (h1 : exceeds 1 mc = false) (t : RTree)
    (seen : List Rect) (d fuel : Nat) (rect : Rect) (hinv : TreeInv mc t seen d)
    (hd : d ≤ fuel) :
    ∃ t1, t.insert fuel rect = some t1 ∧ TreeInv mc t1 (seen ++ [rect]) (d + 1) := by
  obtain ⟨hmc, hcap, hdep, hleaf⟩ := hinv
  subst hmc
  refine ⟨_, insert_of_noOverflow t rect fuel h1 hcap (le_trans hdep hd), rfl, ?_, ?_, ?_⟩
  · cases t with
    | mk root mc =>
      cases root with
      | none =>
        simp only [RTree.noOverflow, noOverflow_iff]
        intro m hm
        simp only [nodes_mk, nodesList, List.mem_singleton] at hm
        subst hm
        simpa using exceeds_zero mc
      | some root =>
        simp only [RTree.noOverflow] at hcap ⊢
        exact insertPure_noOverflow mc rect h1 fuel root hcap
  · cases t with
    | mk root mc =>
      cases root with
      | none => simp [RTree.depth, depth_mk, depthList]
      | some root =>
        simp only [RTree.depth] at hdep ⊢
        exact le_trans (insertPure_depth rect fuel root) (Nat.succ_le_succ hdep)
  · cases t with
    | mk root mc =>
      cases root with
      | none =>
        intro x hx
        simp only [RTree.leafRects] at hx
        rw [mem_leafRects_iff] at hx
        simp only [children_mk, rect_mk, true_and, List.not_mem_nil, false_and, exists_false,
          or_false] at hx
        simp [hx]
      | some root =>
        intro x hx
        simp only [RTree.leafRects] at hx hleaf
        rcases insertPure_leafRects rect fuel root x hx with h | h
        · simp [h]
        · exact List.mem_append_left _ (hleaf x h)

theorem insertAll_TreeInv (mc : Int) (h1 : exceeds 1 mc = false) (fuel : Nat) :
    ∀ (rs : List Rect) (t : RTree) (seen : List Rect) (d : Nat),
      TreeInv mc t seen d → d + rs.length ≤ fuel + 1 →
      ∃ t1, insertAll fuel t rs = some t1 ∧ TreeInv mc t1 (seen ++ rs) (d + rs.length) := by
  intro rs
  induction rs with
  | nil => intro t seen d h _; exact ⟨t, rfl, by simpa using h⟩
  | cons r rs ih =>
    intro t seen d h hd
    simp only [List.length_cons] at hd
    obtain ⟨t1, e1, h1inv⟩ := insert_TreeInv mc h1 t seen d fuel r h (by omega)
    obtain ⟨t2, e2, h2inv⟩ := ih t1 (seen ++ [r]) (d + 1) h1inv (by omega)
    refine ⟨t2, by simp [insertAll, e1, e2], ?_⟩
    simpa [Nat.add_assoc, Nat.add_comm 1] using h2inv

theorem exceeds_eq_false_iff (mc : Int) (h0 : 0 ≤ mc) (hmax : mc ≤ 2147483647) (n : Nat) :
    exceeds n mc = false ↔ (n : Int) ≤ mc := by
  simp only [exceeds, decide_eq_false_iff_not, not_lt]
  rw [sizeT_of_range mc h0 hmax]
  omega

theorem capacityOK_eq_noOverflow (mc : Int) (h0 : 0 ≤ mc) (hmax : mc ≤ 2147483647)
    (n : RTreeNode) : capacityOK mc n = noOverflow mc n := by
  unfold capacityOK noOverflow
  congr 1
  funext m
  rw [Bool.eq_iff_iff]
  simp [exceeds_eq_false_iff mc h0 hmax]

theorem RTree.capacityOK_eq_treeNoOverflow (t : RTree) (h0 : 0 ≤ t.maxChildren)
    (hmax : t.maxChildren ≤ 2147483647) : t.capacityOK = t.noOverflow := by
  cases t with
  | mk root mc =>
    cases root with
    | none => rfl
    | some root => exact RTreeSpec.capacityOK_eq_noOverflow mc h0 hmax root

theorem TreeInv_new (mc : Int) : TreeInv mc (RTree.new mc) [] 0 := by
  simp [TreeInv, RTree.new, RTree.noOverflow, RTree.depth, RTree.leafRects]

/-! ## The claims -/

/-- C1 (search completeness) does not hold of the code.  With `maxChildren = 2`, after
`insert((0,0,1,1))` and `insert((2,2,3,3))` the query `(0,0,1,1)` overlaps the first
inserted rectangle, yet `search` returns the empty sequence: the second insert turned the
root leaf into an inner node and its rectangle is no longer a leaf. -/
theorem C1_search_loses_first_rect (fuel : Nat) :
    ∃ t, insertAll (fuel + 1) (RTree.new 2) [⟨0, 0, 1, 1⟩, ⟨2, 2, 3, 3⟩] = some t ∧
      rectOverlap ⟨0, 0, 1, 1⟩ ⟨0, 0, 1, 1⟩ = true ∧
      t.search ⟨0, 0, 1, 1⟩ = [] := by
  refine ⟨⟨some (.mk ⟨0, 0, 1, 1⟩ [.mk ⟨2, 2, 3, 3⟩ []]), 2⟩, ?_, ?_, ?_⟩
  · simp [insertAll, RTree.insert, RTree.new, insertRect, nodeAt, modifyAt, exceeds, sizeT]
  · simp [rectOverlap]
  · simp [RTree.search, searchRect, searchChildren, rectOverlap]

/-- C2 (search soundness): for `2 <= maxChildren` (an `int`, so at most `2 ^ 31 - 1`),
any sequence of rectangles inserted into an empty tree and any query `q`, the inserts all
return (given fuel for the depth of the tree) and every rectangle returned by `search(q)`
overlaps `q` and is one of the inserted rectangles. -/
theorem C2_search_sound (mc : Int) (h2 : 2 ≤ mc) (hmax : mc ≤ 2147483647)
    (rects : List Rect) (fuel : Nat) (hfuel : rects.length ≤ fuel + 1) (q : Rect) :
    ∃ t, insertAll fuel (RTree.new mc) rects = some t ∧
      ∀ r ∈ t.search q, rectOverlap r q = true ∧ r ∈ rects := by
  obtain ⟨t, e, -, -, -, hleaf⟩ :=
    insertAll_TreeInv mc (exceeds_one mc (by omega) hmax) fuel rects (RTree.new mc) [] 0
      (TreeInv_new mc) (by omega)
  refine ⟨t, e, ?_⟩
  intro r hr
  cases t with
  | mk root m =>
    cases root with
    | none => simp [RTree.search] at hr
    | some root =>
      simp only [RTree.search] at hr
      simp only [RTree.leafRects] at hleaf
      rcases searchRect_sound q root [] r hr with h | ⟨h1, h2⟩
      · cases h
      · exact ⟨h1, by simpa using hleaf r h2⟩

/-- Witness of C2 on the three rectangles of the demonstration program. -/
theorem C2_search_sound_witness :
    ∃ t, insertAll 2 (RTree.new 2) [⟨0, 0, 1, 1⟩, ⟨2, 2, 3, 3⟩, ⟨4, 4, 5, 5⟩] = some t ∧
      ∀ r ∈ t.search ⟨2, 2, 5, 5⟩, rectOverlap r ⟨2, 2, 5, 5⟩ = true ∧
        r ∈ [(⟨0, 0, 1, 1⟩ : Rect), ⟨2, 2, 3, 3⟩, ⟨4, 4, 5, 5⟩] :=
  C2_search_sound 2 (by decide) (by decide) [⟨0, 0, 1, 1⟩, ⟨2, 2, 3, 3⟩, ⟨4, 4, 5, 5⟩] 2
    (by decide) ⟨2, 2, 5, 5⟩

/-- C3 (containment invariant) does not hold of the code.  With `maxChildren = 2`, after
inserting the well-formed rectangles `(0,0,1,1)` and `(2,2,3,3)` the root still has rect
`(0,0,1,1)` and its only leaf has rect `(2,2,3,3)`: the leaf branch of `insertRect`
appends the child without merging the new rectangle into `node->rect`. -/
theorem C3_containment_broken (fuel : Nat) :
    ∃ t, insertAll (fuel + 1) (RTree.new 2) [⟨0, 0, 1, 1⟩, ⟨2, 2, 3, 3⟩] = some t ∧
      t.root = some (.mk ⟨0, 0, 1, 1⟩ [.mk ⟨2, 2, 3, 3⟩ []]) ∧
      rectContains ⟨0, 0, 1, 1⟩ ⟨2, 2, 3, 3⟩ = false ∧
      t.containmentOK = false := by
  refine ⟨⟨some (.mk ⟨0, 0, 1, 1⟩ [.mk ⟨2, 2, 3, 3⟩ []]), 2⟩, ?_, rfl, ?_, ?_⟩
  · simp [insertAll, RTree.insert, RTree.new, insertRect, nodeAt, modifyAt, exceeds, sizeT]
  · simp [rectContains]
  · simp [RTree.containmentOK, containmentOK, nodes, nodesList, leafRects, rectContains]

/-- C4 (capacity invariant): for `2 <= maxChildren` (an `int`, so at most `2 ^ 31 - 1`),
every sequence of inserts into an empty tree returns (given fuel for the depth of the
tree) with a tree in which no node has more than `maxChildren` children; and one insert
into any tree that satisfies this predicate returns with a tree that satisfies it. -/
theorem C4_capacity_invariant (mc : Int) (h2 : 2 ≤ mc) (hmax : mc ≤ 2147483647) :
    (∀ (rects : List Rect) (fuel : Nat), rects.length ≤ fuel + 1 →
      ∃ t, insertAll fuel (RTree.new mc) rects = some t ∧ t.capacityOK = true) ∧
    (∀ (t : RTree) (r : Rect) (fuel : Nat), t.maxChildren = mc → t.capacityOK = true →
      t.depth ≤ fuel → ∃ t1, t.insert fuel r = some t1 ∧ t1.capacityOK = true) := by
  have h1 := exceeds_one mc (by omega) hmax
  constructor
  · intro rects fuel hfuel
    obtain ⟨t, e, hmc, hcap, -, -⟩ :=
      insertAll_TreeInv mc h1 fuel rects (RTree.new mc) [] 0 (TreeInv_new mc) (by omega)
    refine ⟨t, e, ?_⟩
    rw [t.capacityOK_eq_treeNoOverflow (by omega) (by omega)]
    exact hcap
  · intro t r fuel hmc hcap hd
    rw [t.capacityOK_eq_treeNoOverflow (by omega) (by omega)] at hcap
    obtain ⟨t1, e, hmc1, hcap1, -, -⟩ :=
      insert_TreeInv mc h1 t t.leafRects t.depth fuel r
        ⟨hmc, hcap, le_refl _, fun _ h => h⟩ hd
    refine ⟨t1, e, ?_⟩
    rw [t1.capacityOK_eq_treeNoOverflow (by omega) (by omega)]
    exact hcap1

/-- Witness of C4: three inserts into an empty tree, and one insert into a root with two
leaf children, both with `maxChildren = 2`. -/
theorem C4_capacity_invariant_witness :
    (∃ t, insertAll 2 (RTree.new 2) [⟨0, 0, 1, 1⟩, ⟨2, 2, 3, 3⟩, ⟨4, 4, 5, 5⟩] = some t ∧
      t.capacityOK = true) ∧
    (∃ t1, RTree.insert 2
        ⟨some (.mk ⟨0, 0, 3, 3⟩ [.mk ⟨0, 0, 1, 1⟩ [], .mk ⟨2, 2, 3, 3⟩ []]), 2⟩
        ⟨4, 4, 5, 5⟩ = some t1 ∧ t1.capacityOK = true) :=
  ⟨(C4_capacity_invariant 2 (by decide) (by decide)).1
      [⟨0, 0, 1, 1⟩, ⟨2, 2, 3, 3⟩, ⟨4, 4, 5, 5⟩] 2 (by decide),
    (C4_capacity_invariant 2 (by decide) (by decide)).2
      ⟨some (.mk ⟨0, 0, 3, 3⟩ [.mk ⟨0, 0, 1, 1⟩ [], .mk ⟨2, 2, 3, 3⟩ []]), 2⟩
      ⟨4, 4, 5, 5⟩ 2 rfl
      (by simp [RTree.capacityOK, capacityOK, nodes, nodesList])
      (by simp [RTree.depth, depth, depthList])⟩

/-- C5 (growth monotonicity) does not hold of the code.  With `maxChildren = 2`, the
first `insert((0,0,1,1))` makes the root rect `(0,0,1,1)`, as claimed; the second
`insert((2,2,3,3))` leaves the root rect at `(0,0,1,1)`, while
`mergeRects((0,0,1,1), (2,2,3,3))` is `(0,0,3,3)`: only the inner-node branch of
`insertRect` (line 61) merges the new rectangle into `node->rect`. -/
theorem C5_root_rect_not_merged (fuel : Nat) :
    ∃ t1 t2, (RTree.new 2).insert fuel ⟨0, 0, 1, 1⟩ = some t1 ∧
      t1.insert (fuel + 1) ⟨2, 2, 3, 3⟩ = some t2 ∧
      t1.root.map RTreeNode.rect = some ⟨0, 0, 1, 1⟩ ∧
      t2.root.map RTreeNode.rect = some ⟨0, 0, 1, 1⟩ ∧
      mergeRects ⟨0, 0, 1, 1⟩ ⟨2, 2, 3, 3⟩ = ⟨0, 0, 3, 3⟩ := by
  refine ⟨⟨some (.mk ⟨0, 0, 1, 1⟩ []), 2⟩,
    ⟨some (.mk ⟨0, 0, 1, 1⟩ [.mk ⟨2, 2, 3, 3⟩ []]), 2⟩, ?_, ?_, rfl, rfl, ?_⟩
  · simp [RTree.insert, RTree.new]
  · simp [RTree.insert, insertRect, nodeAt, modifyAt, exceeds, sizeT]
  · simp [mergeRects]

/-- C6 (insert adds a leaf and loses none) does not hold of the code.  With
`maxChildren = 2`, after `insert((0,0,1,1))` and `insert((2,2,3,3))` the tree has one
leaf, with rect `(2,2,3,3)`: the leaf that held `(0,0,1,1)` became an inner node. -/
theorem C6_first_leaf_lost (fuel : Nat) :
    ∃ t, insertAll (fuel + 1) (RTree.new 2) [⟨0, 0, 1, 1⟩, ⟨2, 2, 3, 3⟩] = some t ∧
      t.leafRects = [⟨2, 2, 3, 3⟩] := by
  refine ⟨⟨some (.mk ⟨0, 0, 1, 1⟩ [.mk ⟨2, 2, 3, 3⟩ []]), 2⟩, ?_, ?_⟩
  · simp [insertAll, RTree.insert, RTree.new, insertRect, nodeAt, modifyAt, exceeds, sizeT]
  · simp [RTree.leafRects, leafRects, nodes, nodesList]

/-- C7 (scenario 2) does not hold of the code.  With `maxChildren = 2`, after the inserts
of `(0,0,1,1)`, `(2,2,3,3)`, `(4,4,5,5)` the tree is the chain
`(0,0,5,5) -> (2,2,3,3) -> (4,4,5,5)` (no split happened) and
`search((2.5,2.5,4.5,4.5))` returns `[(4,4,5,5)]`, not `[(2,2,3,3), (4,4,5,5)]`. -/
theorem C7_demo_search_result (fuel : Nat) :
    ∃ t, insertAll (fuel + 2) (RTree.new 2)
        [⟨0, 0, 1, 1⟩, ⟨2, 2, 3, 3⟩, ⟨4, 4, 5, 5⟩] = some t ∧
      t.root = some (.mk ⟨0, 0, 5, 5⟩ [.mk ⟨2, 2, 3, 3⟩ [.mk ⟨4, 4, 5, 5⟩ []]]) ∧
      t.search ⟨2.5, 2.5, 4.5, 4.5⟩ = [⟨4, 4, 5, 5⟩] := by
  refine ⟨⟨some (.mk ⟨0, 0, 5, 5⟩ [.mk ⟨2, 2, 3, 3⟩ [.mk ⟨4, 4, 5, 5⟩ []]]), 2⟩, ?_, rfl, ?_⟩
  · simp [insertAll, RTree.insert, RTree.new, insertRect, nodeAt, modifyAt, exceeds, sizeT,
      chooseChild, chooseLoop, mergeRects]
  · simp [RTree.search, searchRect, searchChildren, rectOverlap]
    norm_num

/-- C8 (scenario 3, self-query): for every `maxChildren` (in particular `>= 2`) and every
well-formed rectangle `r`, degenerate ones included, `insert(r)` on a fresh tree returns
and `search(r)` on the result is exactly `[r]`. -/
theorem C8_self_query (mc : Int) (r : Rect) (hwf : r.wellFormed) (fuel : Nat) :
    ∃ t, (RTree.new mc).insert fuel r = some t ∧ t.search r = [r] := by
  refine ⟨⟨some (.mk r []), mc⟩, by simp [RTree.insert, RTree.new], ?_⟩
  obtain ⟨hx, hy⟩ := hwf
  simp [RTree.search, searchRect, rectOverlap, hx, hy]

/-- Witness of C8 on a degenerate (single point) rectangle, `maxChildren = 2`. -/
theorem C8_self_query_witness :
    ∃ t, (RTree.new 2).insert 0 ⟨1, 1, 1, 1⟩ = some t ∧
      t.search ⟨1, 1, 1, 1⟩ = [⟨1, 1, 1, 1⟩] :=
  C8_self_query 2 ⟨1, 1, 1, 1⟩ ⟨le_refl _, le_refl _⟩ 0

/-- C9 (scenario 1): for every `maxChildren` and every query rectangle, well formed or
not, `search` on a freshly constructed tree returns the empty sequence. -/
theorem C9_search_empty_tree (mc : Int) (q : Rect) : (RTree.new mc).search q = [] := by
  simp [RTree.search, RTree.new]

/-- C10 (configuration is validated) does not hold of the code: the constructor called
with `maxChildren = 1` yields a tree that carries `maxChildren = 1`, and that tree is
used: `insert((0,0,1,1))` stores the rectangle and `search((0,0,1,1))` returns it. -/
theorem C10_unvalidated_config :
    (RTree.new 1).maxChildren = 1 ∧
      (RTree.new 1).insert 0 ⟨0, 0, 1, 1⟩ = some ⟨some (.mk ⟨0, 0, 1, 1⟩ []), 1⟩ ∧
      RTree.search ⟨some (.mk ⟨0, 0, 1, 1⟩ []), 1⟩ ⟨0, 0, 1, 1⟩ = [⟨0, 0, 1, 1⟩] := by
  refine ⟨rfl, by simp [RTree.insert, RTree.new], ?_⟩
  simp [RTree.search, searchRect, rectOverlap]

/-- C10 as amended: construction validates nothing.  For every `maxChildren`, values
below 2 included, the constructor yields an empty tree carrying that `maxChildren`, on
which `search` returns the empty sequence and the first `insert(r)` returns with `r`
stored as the root leaf. -/
theorem C10_construction_total (mc : Int) (r q : Rect) (fuel : Nat) :
    (RTree.new mc).root = none ∧ (RTree.new mc).maxChildren = mc ∧
      (RTree.new mc).search q = [] ∧
      (RTree.new mc).insert fuel r = some ⟨some (.mk r []), mc⟩ := by
  simp [RTree.new, RTree.search, RTree.insert]

/-! ## Search as a function of the leaves -/

theorem searchChildren_acc (q : Rect) :
    ∀ cs : List RTreeNode,
      (∀ c ∈ cs, ∀ acc : List Rect, searchRect c q acc = acc ++ searchRect c q []) →
      ∀ acc : List Rect, searchChildren cs q acc = acc ++ searchChildren cs q [] := by
  intro cs
  induction cs with
  | nil => intro _ acc; simp [searchChildren]
  | cons c cs ih =>
    intro hc acc
    have ih1 := ih (fun d hd => hc d (List.mem_cons_of_mem _ hd))
    rw [searchChildren, searchChildren, ih1,
      ih1 (if rectOverlap c.rect q = true then searchRect c q [] else [])]
    by_cases hov : rectOverlap c.rect q = true
    · simp only [hov, if_true]
      rw [hc c (List.mem_cons_self _ _) acc, List.append_assoc]
    · simp [hov]

theorem searchRect_acc (q : Rect) :
    ∀ (n : RTreeNode) (acc : List Rect), searchRect n q acc = acc ++ searchRect n q [] := by
  intro n
  induction n using RTreeNode.induct_children with
  | step r cs ih =>
    intro acc
    cases cs with
    | nil =>
      rw [searchRect, searchRect]
      split <;> simp
    | cons c cs =>
      rw [searchRect, searchRect]
      exact searchChildren_acc q (c :: cs) ih acc

theorem searchChildren_eq_flatMap (q : Rect) :
    ∀ cs : List RTreeNode, searchChildren cs q [] =
      cs.flatMap (fun c => if rectOverlap c.rect q then searchRect c q [] else []) := by
  intro cs
  induction cs with
  | nil => simp [searchChildren]
  | cons c cs ih =>
    rw [searchChildren, searchChildren_acc q cs (fun d _ => searchRect_acc q d), ih]
    simp

theorem searchRect_leaf (q r : Rect) :
    searchRect (.mk r []) q [] = if rectOverlap r q then [r] else [] := by
  rw [searchRect]
  split <;> simp

theorem searchRect_inner (q r : Rect) (c : RTreeNode) (cs : List RTreeNode) :
    searchRect (.mk r (c :: cs)) q [] =
      (c :: cs).flatMap (fun d => if rectOverlap d.rect q then searchRect d q [] else []) := by
  rw [searchRect]
  exact searchChildren_eq_flatMap q (c :: cs)

theorem leafRectsList_eq (cs : List RTreeNode) :
    ((nodesList cs).filter (fun n => n.children.isEmpty)).map RTreeNode.rect =
      cs.flatMap leafRects := by
  induction cs with
  | nil => simp [nodesList]
  | cons c cs ih => simp [nodesList, ih, leafRects]

theorem leafRects_leaf (r : Rect) : leafRects (.mk r []) = [r] := by
  simp [leafRects, nodes_mk, nodesList]

theorem leafRects_inner (r : Rect) (c : RTreeNode) (cs : List RTreeNode) :
    leafRects (.mk r (c :: cs)) = (c :: cs).flatMap leafRects := by
  rw [← leafRectsList_eq]
  simp [leafRects, nodes_mk]

theorem rectOverlap_of_contains (o i q : Rect) (hc : rectContains o i = true)
    (hov : rectOverlap i q = true) : rectOverlap o q = true := by
  simp only [rectContains, rectOverlap, Bool.and_eq_true, decide_eq_true_eq, ge_iff_le]
    at hc hov ⊢
  obtain ⟨⟨⟨h1, h2⟩, h3⟩, h4⟩ := hc
  obtain ⟨⟨⟨k1, k2⟩, k3⟩, k4⟩ := hov
  exact ⟨⟨⟨le_trans h1 k1, le_trans k2 h3⟩, le_trans h2 k3⟩, le_trans k4 h4⟩

theorem containmentOK_iff (n : RTreeNode) :
    containmentOK n = true ↔
      ∀ m ∈ nodes n, ∀ l ∈ leafRects m, rectContains m.rect l = true := by
  simp [containmentOK, List.all_eq_true]

theorem containmentOK_child (n c : RTreeNode) (h : containmentOK n = true)
    (hc : c ∈ n.children) : containmentOK c = true := by
  rw [containmentOK_iff] at h ⊢
  intro m hm
  exact h m ((mem_nodes m n).2 (Or.inr ⟨c, hc, hm⟩))

theorem searchRect_eq_filter (q : Rect) :
    ∀ n : RTreeNode, containmentOK n = true →
      searchRect n q [] = (leafRects n).filter (fun l => rectOverlap l q) := by
  intro n
  induction n using RTreeNode.induct_children with
  | step r cs ih =>
    intro hcont
    cases cs with
    | nil =>
      rw [searchRect_leaf, leafRects_leaf]
      by_cases hov : rectOverlap r q = true <;> simp [hov]
    | cons c cs =>
      rw [searchRect_inner, leafRects_inner, List.filter_flatMap]
      apply List.flatMap_congr
      intro d hd
      have hd1 : containmentOK d = true :=
        containmentOK_child (.mk r (c :: cs)) d hcont (by simpa using hd)
      by_cases hov : rectOverlap d.rect q = true
      · simp only [hov, if_true]
        exact ih d hd hd1
      · simp only [hov, Bool.false_eq_true, if_false]
        symm
        rw [List.filter_eq_nil_iff]
        intro l hl hlq
        exact hov (rectOverlap_of_contains d.rect l q
          ((containmentOK_iff d).1 hd1 d (self_mem_nodes d) l hl) hlq)

theorem searchRect_sublist (q : Rect) :
    ∀ n : RTreeNode, (searchRect n q []).Sublist (leafRects n) := by
  intro n
  induction n using RTreeNode.induct_children with
  | step r cs ih =>
    cases cs with
    | nil =>
      rw [searchRect_leaf, leafRects_leaf]
      split <;> simp
    | cons c cs =>
      rw [searchRect_inner, leafRects_inner]
      generalize c :: cs = ds at ih
      induction ds with
      | nil => simp
      | cons d ds ihd =>
        simp only [List.flatMap_cons]
        apply List.Sublist.append
        · split
          · exact ih d (List.mem_cons_self _ _)
          · exact List.nil_sublist _
        · exact ihd (fun x hx => ih x (List.mem_cons_of_mem _ hx))

/-! ## Lemmas on rounding -/

theorem roundHalfEven_intCast (n : ℤ) : roundHalfEven (n : ℚ) = n := by
  simp [roundHalfEven]

theorem roundHalfEven_of_lt (y : ℚ) (n : ℤ) (h1 : (n : ℚ) ≤ y) (h2 : y - n < 1 / 2) :
    roundHalfEven y = n := by
  have hf : ⌊y⌋ = n := Int.floor_eq_iff.2 ⟨h1, by linarith⟩
  simp only [roundHalfEven, hf, if_pos h2]

theorem roundHalfEven_of_gt (y : ℚ) (n : ℤ) (h1 : y < (n : ℚ)) (h2 : n - y < 1 / 2) :
    roundHalfEven y = n := by
  have hf : ⌊y⌋ = n - 1 := Int.floor_eq_iff.2 ⟨by push_cast; linarith, by push_cast; linarith⟩
  have h3 : ¬ (y - ((n - 1 : ℤ) : ℚ) < 1 / 2) := by push_cast; linarith
  have h4 : 1 / 2 < y - ((n - 1 : ℤ) : ℚ) := by push_cast; linarith
  simp only [roundHalfEven, hf, h3, h4, if_true, if_false]
  ring

theorem roundHalfEven_nonneg (y : ℚ) (h : 0 ≤ y) : 0 ≤ roundHalfEven y := by
  have hf : 0 ≤ ⌊y⌋ := Int.floor_nonneg.2 h
  unfold roundHalfEven
  split_ifs <;> omega

theorem roundHalfEven_nonpos (y : ℚ) (h : y ≤ 0) : roundHalfEven y ≤ 0 := by
  have hf : (⌊y⌋ : ℚ) ≤ y := Int.floor_le y
  have hf0 : ⌊y⌋ ≤ 0 := by exact_mod_cast le_trans hf h
  unfold roundHalfEven
  split_ifs with h1 h2 h3
  · exact hf0
  · have : (⌊y⌋ : ℚ) < 0 := by linarith
    have : ⌊y⌋ < 0 := by exact_mod_cast this
    omega
  · exact hf0
  · have : (⌊y⌋ : ℚ) < 0 := by linarith
    have : ⌊y⌋ < 0 := by exact_mod_cast this
    omega

theorem ulp_pos (x : ℚ) : 0 < ulp x := by
  unfold ulp
  positivity

theorem fl_nonneg (x : ℚ) (h : 0 ≤ x) : 0 ≤ fl x := by
  unfold fl
  apply mul_nonneg _ (le_of_lt (ulp_pos x))
  exact_mod_cast roundHalfEven_nonneg _ (div_nonneg h (le_of_lt (ulp_pos x)))

theorem fl_nonpos (x : ℚ) (h : x ≤ 0) : fl x ≤ 0 := by
  unfold fl
  apply mul_nonpos_of_nonpos_of_nonneg _ (le_of_lt (ulp_pos x))
  exact_mod_cast roundHalfEven_nonpos _
    (div_nonpos_of_nonpos_of_nonneg h (le_of_lt (ulp_pos x)))

@[simp] theorem fl_zero : fl 0 = 0 := by
  simp [fl, roundHalfEven]

theorem ulp_eq (x : ℚ) (e : ℤ) (he : -1022 ≤ e) (h1 : (2 : ℚ) ^ e ≤ x)
    (h2 : x < (2 : ℚ) ^ (e + 1)) : ulp x = (2 : ℚ) ^ (e - 52) := by
  have hpos : 0 < x := lt_of_lt_of_le (by positivity) h1
  have hlog : Int.log 2 |x| = e := by
    rw [abs_of_pos hpos]
    have a1 : e ≤ Int.log 2 x :=
      (Int.zpow_le_iff_le_log (by norm_num) hpos).1 (by exact_mod_cast h1)
    have a2 : Int.log 2 x < e + 1 :=
      (Int.lt_zpow_iff_log_lt (by norm_num) hpos).1 (by exact_mod_cast h2)
    omega
  unfold ulp
  rw [hlog, max_eq_left he]

theorem ulp_neg (x : ℚ) : ulp (-x) = ulp x := by
  unfold ulp
  rw [abs_neg]

/-- Rounding of a positive `x` in the binade `2 ^ e <= x < 2 ^ (e + 1)`. -/
theorem fl_eq (x : ℚ) (e : ℤ) (he : -1022 ≤ e) (h1 : (2 : ℚ) ^ e ≤ x)
    (h2 : x < (2 : ℚ) ^ (e + 1)) :
    fl x = roundHalfEven (x / (2 : ℚ) ^ (e - 52)) * (2 : ℚ) ^ (e - 52) := by
  unfold fl
  rw [ulp_eq x e he h1 h2]

/-- A positive multiple of the spacing of its binade is a double. -/
theorem fl_exact (x : ℚ) (e : ℤ) (n : ℤ) (he : -1022 ≤ e) (h1 : (2 : ℚ) ^ e ≤ x)
    (h2 : x < (2 : ℚ) ^ (e + 1)) (hx : x = n * (2 : ℚ) ^ (e - 52)) : fl x = x := by
  rw [fl_eq x e he h1 h2]
  have hu : (0 : ℚ) < (2 : ℚ) ^ (e - 52) := by positivity
  have : x / (2 : ℚ) ^ (e - 52) = n := by
    rw [hx]; field_simp
  rw [this, roundHalfEven_intCast, ← hx]

theorem fl_exact_neg (x : ℚ) (e : ℤ) (n : ℤ) (he : -1022 ≤ e) (h1 : (2 : ℚ) ^ e ≤ x)
    (h2 : x < (2 : ℚ) ^ (e + 1)) (hx : x = n * (2 : ℚ) ^ (e - 52)) : fl (-x) = -x := by
  unfold fl
  rw [ulp_neg, ulp_eq x e he h1 h2]
  have hu : (0 : ℚ) < (2 : ℚ) ^ (e - 52) := by positivity
  have : -x / (2 : ℚ) ^ (e - 52) = ((-n : ℤ) : ℚ) := by
    rw [hx]; push_cast; field_simp
  rw [this, roundHalfEven_intCast, hx]
  push_cast
  ring

theorem natCast_binade (n : ℕ) (hpos : 0 < n) :
    (2 : ℚ) ^ ((Nat.log 2 n : ℕ) : ℤ) ≤ (n : ℚ) ∧
      (n : ℚ) < (2 : ℚ) ^ (((Nat.log 2 n : ℕ) : ℤ) + 1) := by
  constructor
  · rw [zpow_natCast]
    exact_mod_cast Nat.pow_log_le_self 2 (by omega)
  · have := Nat.lt_pow_succ_log_self (by norm_num : 1 < 2) n
    have e : (((Nat.log 2 n : ℕ) : ℤ) + 1) = ((Nat.log 2 n + 1 : ℕ) : ℤ) := by
      push_cast; ring
    rw [e, zpow_natCast]
    exact_mod_cast this

theorem natCast_spacing (n : ℕ) (hlt : Nat.log 2 n < 53) :
    (n : ℚ) = ((n : ℤ) * 2 ^ (52 - Nat.log 2 n) : ℤ) *
      (2 : ℚ) ^ (((Nat.log 2 n : ℕ) : ℤ) - 52) := by
  have e : ((Nat.log 2 n : ℕ) : ℤ) - 52 = -((52 - Nat.log 2 n : ℕ) : ℤ) := by omega
  rw [e, zpow_neg, zpow_natCast]
  push_cast
  field_simp

/-- Every natural number below `2 ^ 53` is a double. -/
theorem fl_natCast (n : ℕ) (h : n < 2 ^ 53) : fl (n : ℚ) = n := by
  rcases Nat.eq_zero_or_pos n with rfl | hpos
  · simp
  · have hlt : Nat.log 2 n < 53 := Nat.log_lt_of_lt_pow (by omega) h
    obtain ⟨h1, h2⟩ := natCast_binade n hpos
    exact fl_exact (n : ℚ) (Nat.log 2 n) _ (by omega) h1 h2 (natCast_spacing n hlt)

theorem fl_neg_natCast (n : ℕ) (h : n < 2 ^ 53) : fl (-(n : ℚ)) = -(n : ℚ) := by
  rcases Nat.eq_zero_or_pos n with rfl | hpos
  · simp
  · have hlt : Nat.log 2 n < 53 := Nat.log_lt_of_lt_pow (by omega) h
    obtain ⟨h1, h2⟩ := natCast_binade n hpos
    exact fl_exact_neg (n : ℚ) (Nat.log 2 n) _ (by omega) h1 h2 (natCast_spacing n hlt)

@[simp] theorem fl_ofNat (n : ℕ) [n.AtLeastTwo] (h : n < 2 ^ 53) :
    fl (no_index (OfNat.ofNat n) : ℚ) = OfNat.ofNat n := by
  have := fl_natCast n h
  simpa using this

@[simp] theorem fl_neg_ofNat (n : ℕ) [n.AtLeastTwo] (h : n < 2 ^ 53) :
    fl (-(no_index (OfNat.ofNat n) : ℚ)) = -OfNat.ofNat n := by
  have := fl_neg_natCast n h
  simpa using this

@[simp] theorem fl_one : fl 1 = 1 := by
  simpa using fl_natCast 1 (by norm_num)

@[simp] theorem fl_neg_one : fl (-1) = -1 := by
  simpa using fl_neg_natCast 1 (by norm_num)

/-! ## Lemmas on the bounding-box arithmetic -/

theorem gap_sq_le (a1 a2 b1 b2 p q : ℚ) (hp1 : a1 ≤ p) (hp2 : p ≤ a2) (hq1 : b1 ≤ q)
    (hq2 : q ≤ b2) :
    max 0 (max (a1 - b2) (b1 - a2)) * max 0 (max (a1 - b2) (b1 - a2)) ≤ (p - q) ^ 2 := by
  have h0 : (0 : ℚ) ≤ max 0 (max (a1 - b2) (b1 - a2)) := le_max_left _ _
  have hd : max 0 (max (a1 - b2) (b1 - a2)) ≤ |p - q| := by
    apply max_le (abs_nonneg _)
    apply max_le
    · have := le_abs_self (p - q)
      linarith
    · have := neg_le_abs (p - q)
      linarith
  calc max 0 (max (a1 - b2) (b1 - a2)) * max 0 (max (a1 - b2) (b1 - a2))
      ≤ |p - q| * |p - q| := mul_self_le_mul_self h0 hd
    _ = (p - q) ^ 2 := by rw [abs_mul_abs_self]; ring

theorem gap_sq_attained (a1 a2 b1 b2 : ℚ) (ha : a1 ≤ a2) (hb : b1 ≤ b2) :
    ∃ p q, a1 ≤ p ∧ p ≤ a2 ∧ b1 ≤ q ∧ q ≤ b2 ∧
      max 0 (max (a1 - b2) (b1 - a2)) * max 0 (max (a1 - b2) (b1 - a2)) = (p - q) ^ 2 := by
  by_cases h1 : 0 < a1 - b2
  · refine ⟨a1, b2, le_refl _, ha, hb, le_refl _, ?_⟩
    have e : max 0 (max (a1 - b2) (b1 - a2)) = a1 - b2 := by
      rw [max_eq_right (le_trans (le_of_lt h1) (le_max_left _ _)),
        max_eq_left (by linarith)]
    rw [e]; ring
  · by_cases h2 : 0 < b1 - a2
    · refine ⟨a2, b1, ha, le_refl _, le_refl _, hb, ?_⟩
      have e : max 0 (max (a1 - b2) (b1 - a2)) = b1 - a2 := by
        rw [max_eq_right (le_trans (le_of_lt h2) (le_max_right _ _)),
          max_eq_right (by linarith)]
      rw [e]; ring
    · refine ⟨max a1 b1, max a1 b1, le_max_left _ _, max_le ha (by linarith),
        le_max_right _ _, max_le (by linarith) hb, ?_⟩
      have e : max 0 (max (a1 - b2) (b1 - a2)) = 0 :=
        max_eq_left (max_le (by linarith) (by linarith))
      rw [e]; ring

theorem insertPure_mem_leafRects (rect : Rect) :
    ∀ (k : Nat) (n : RTreeNode), depth n ≤ k → rect ∈ leafRects (insertPure rect k n) := by
  intro k
  induction k with
  | zero =>
    intro n hd
    have := depth_eq n
    omega
  | succ k ih =>
    intro n hd
    by_cases hempty : n.children = []
    · rw [insertPure_succ_leaf rect k n hempty, leafRects_inner]
      simp [leafRects_leaf]
    · have hi := chooseChild_lt rect n.children hempty
      have hget : n.children[chooseChild n.children rect]? =
          some (n.children[chooseChild n.children rect]) :=
        List.getElem?_eq_getElem hi
      have hmem : n.children[chooseChild n.children rect] ∈ n.children :=
        List.getElem_mem hi
      have hdc : depth (n.children[chooseChild n.children rect]) ≤ k := by
        have := depth_le_depthList _ _ hmem
        have := depth_eq n
        omega
      rw [insertPure_succ_inner rect k n _ hempty hget, mem_leafRects_iff]
      right
      exact ⟨_, by simpa using List.mem_set _ _ hi _, ih _ hdc⟩

/-! ## Inserts into an empty tree build a chain -/

theorem isChain_iff (n : RTreeNode) :
    isChain n = true ↔ ∀ m ∈ nodes n, m.children.length ≤ 1 := by
  simp [isChain, List.all_eq_true]

theorem isChain_child (n c : RTreeNode) (h : isChain n = true) (hc : c ∈ n.children) :
    isChain c = true := by
  rw [isChain_iff] at h ⊢
  intro m hm
  exact h m ((mem_nodes m n).2 (Or.inr ⟨c, hc, hm⟩))

theorem noOverflow_of_isChain (mc : Int) (h1 : exceeds 1 mc = false) (n : RTreeNode)
    (h : isChain n = true) : noOverflow mc n = true := by
  rw [noOverflow_iff]
  intro m hm
  have hlen := (isChain_iff n).1 h m hm
  simp only [exceeds, decide_eq_false_iff_not, not_lt] at h1 ⊢
  omega

theorem insertPure_chain (rect : Rect) :
    ∀ (k : Nat) (n : RTreeNode), isChain n = true → depth n ≤ k →
      isChain (insertPure rect k n) = true ∧
        (nodes (insertPure rect k n)).length = (nodes n).length + 1 ∧
        leafRects (insertPure rect k n) = [rect] := by
  intro k
  induction k with
  | zero =>
    intro n _ hd
    have := depth_eq n
    omega
  | succ k ih =>
    intro n hch hd
    obtain ⟨r, cs⟩ := n
    match cs, hch, hd with
    | [], _, _ =>
      rw [insertPure_succ_leaf rect k (.mk r []) rfl]
      refine ⟨?_, ?_, ?_⟩
      · simp [isChain, nodes_mk, nodesList]
      · simp [nodes_mk, nodesList]
      · simp [leafRects_inner, leafRects_leaf]
    | [c], hch, hd =>
      have hc0 : chooseChild [c] rect = 0 := by
        have := chooseChild_lt rect [c] (by simp)
        simpa using this
      have hcc : isChain c = true := isChain_child _ c hch (by simp)
      have hdc : depth c ≤ k := by
        have h1 := depth_le_depthList c [c] (by simp)
        rw [depth_mk] at hd
        omega
      obtain ⟨i1, i2, i3⟩ := ih c hcc hdc
      rw [insertPure_succ_inner rect k (.mk r [c]) c (by simp) (by simp [hc0])]
      simp only [children_mk, rect_mk, hc0, List.set_cons_zero]
      refine ⟨?_, ?_, ?_⟩
      · rw [isChain_iff]
        intro m hm
        rcases (mem_nodes m _).1 hm with rfl | ⟨d, hd1, hmd⟩
        · simp
        · simp only [children_mk, List.mem_singleton] at hd1
          subst hd1
          exact (isChain_iff _).1 i1 m hmd
      · simp [nodes_mk, nodesList, i2]
      · simp [leafRects_inner, i3]
    | c :: d :: ds, hch, _ =>
      have := (isChain_iff _).1 hch _ (self_mem_nodes _)
      simp at this

theorem insertAll_chain (mc : Int) (h1 : exceeds 1 mc = false) (fuel : Nat) :
    ∀ (rs : List Rect) (root : RTreeNode) (last : Rect) (k : Nat),
      isChain root = true → depth root ≤ k → (nodes root).length = k →
      leafRects root = [last] → k + rs.length ≤ fuel + 1 →
      ∃ root1, insertAll fuel ⟨some root, mc⟩ rs = some ⟨some root1, mc⟩ ∧
        insertAllNoSplit fuel ⟨some root, mc⟩ rs = ⟨some root1, mc⟩ ∧
        isChain root1 = true ∧ (nodes root1).length = k + rs.length ∧
        leafRects root1 = [(last :: rs).getLast (List.cons_ne_nil _ _)] := by
  intro rs
  induction rs with
  | nil =>
    intro root last k hch _ hn hl _
    exact ⟨root, rfl, rfl, hch, by simpa using hn, by simpa using hl⟩
  | cons r rs ih =>
    intro root last k hch hd hn hl hf
    simp only [List.length_cons] at hf
    have hdf : depth root ≤ fuel := by omega
    have hins := insert_of_noOverflow ⟨some root, mc⟩ r fuel h1
      (noOverflow_of_isChain mc h1 root hch) hdf
    obtain ⟨c1, c2, c3⟩ := insertPure_chain r fuel root hch hdf
    have hd1 : depth (insertPure r fuel root) ≤ k + 1 :=
      le_trans (insertPure_depth r fuel root) (Nat.succ_le_succ hd)
    obtain ⟨root1, e1, e2, e3, e4, e5⟩ :=
      ih (insertPure r fuel root) r (k + 1) c1 hd1 (by omega) c3 (by omega)
    refine ⟨root1, ?_, ?_, e3, ?_, ?_⟩
    · simp only [insertAll, hins]
      exact e1
    · simp only [insertAllNoSplit, RTree.insertNoSplit]
      exact e2
    · simp only [List.length_cons]
      omega
    · rw [e5]
      simp [List.getLast_cons]

theorem sublist_singleton (a : Rect) (l : List Rect) (h : l.Sublist [a]) :
    l = [] ∨ l = [a] := by
  cases h with
  | cons _ h1 => exact Or.inl (List.eq_nil_of_sublist_nil h1)
  | cons₂ _ h1 => exact Or.inr (by rw [List.eq_nil_of_sublist_nil h1])

/-! ## Seed selection -/

theorem calcDistance_nonneg (a b : Rect) : 0 ≤ calcDistance a b := by
  simp only [calcDistance]
  exact fl_nonneg _
    (add_nonneg (fl_nonneg _ (mul_self_nonneg _)) (fl_nonneg _ (mul_self_nonneg _)))

theorem SeedsGood_nonneg (all : List RTreeNode) (st : Option (Nat × Nat) × ℚ)
    (h : SeedsGood all st) : 0 ≤ st.2 := by
  obtain ⟨seeds, d⟩ := st
  cases seeds with
  | none =>
    simp only [SeedsGood] at h
    exact le_of_eq h.symm
  | some ab =>
    obtain ⟨a, b⟩ := ab
    simp only [SeedsGood] at h
    exact le_of_lt h.2.choose_spec.choose_spec.2.2.2

theorem drop_cons_inv (all : List RTreeNode) (j : Nat) (c : RTreeNode)
    (cs : List RTreeNode) (h : all.drop j = c :: cs) :
    all[j]? = some c ∧ all.drop (j + 1) = cs := by
  constructor
  · have := List.getElem?_drop all j 0
    rw [h] at this
    simpa using this.symm
  · rw [← List.tail_drop, h]
    rfl

theorem findSeedsInner_spec (all : List RTreeNode) (i : Nat) (ci : RTreeNode)
    (hi : all[i]? = some ci) :
    ∀ (cs : List RTreeNode) (j : Nat) (st : Option (Nat × Nat) × ℚ),
      all.drop j = cs → i < j → SeedsGood all st → SeedsBound all st i j →
      SeedsGood all (findSeedsInner ci.rect i cs j st) ∧
        SeedsBound all (findSeedsInner ci.rect i cs j st) (i + 1) 0 := by
  intro cs
  induction cs with
  | nil =>
    intro j st hdrop _ hgood hbound
    rw [findSeedsInner]
    refine ⟨hgood, ?_⟩
    intro a b ca cb hab ha hb hlt
    have hlen : all.length ≤ j := List.drop_eq_nil_iff.1 hdrop
    have hb1 : b < all.length := (List.getElem?_eq_some.1 hb).1
    apply hbound a b ca cb hab ha hb
    rcases hlt with h | ⟨_, h⟩
    · rcases Nat.lt_succ_iff_lt_or_eq.1 h with h | h
      · exact Or.inl h
      · exact Or.inr ⟨h, by omega⟩
    · omega
  | cons c cs ih =>
    intro j st hdrop hij hgood hbound
    obtain ⟨hj, hdrop1⟩ := drop_cons_inv all j c cs hdrop
    have h0 := SeedsGood_nonneg all st hgood
    rw [findSeedsInner]
    split
    · rename_i hgt
      apply ih (j + 1) _ hdrop1 (by omega)
      · simp only [SeedsGood]
        exact ⟨hij, ci, c, hi, hj, rfl, lt_of_le_of_lt h0 hgt⟩
      · intro a b ca cb hab ha hb hlt
        simp only
        rcases hlt with h | ⟨h1, h2⟩
        · exact le_trans (hbound a b ca cb hab ha hb (Or.inl h)) (le_of_lt hgt)
        · rcases Nat.lt_succ_iff_lt_or_eq.1 h2 with h2 | h2
          · exact le_trans (hbound a b ca cb hab ha hb (Or.inr ⟨h1, h2⟩)) (le_of_lt hgt)
          · subst h1 h2
            rw [hi] at ha
            rw [hj] at hb
            cases ha
            cases hb
            exact le_refl _
    · rename_i hle
      apply ih (j + 1) _ hdrop1 (by omega) hgood
      intro a b ca cb hab ha hb hlt
      rcases hlt with h | ⟨h1, h2⟩
      · exact hbound a b ca cb hab ha hb (Or.inl h)
      · rcases Nat.lt_succ_iff_lt_or_eq.1 h2 with h2 | h2
        · exact hbound a b ca cb hab ha hb (Or.inr ⟨h1, h2⟩)
        · subst h1 h2
          rw [hi] at ha
          rw [hj] at hb
          cases ha
          cases hb
          exact not_lt.1 hle

theorem findSeedsOuter_spec (all : List RTreeNode) :
    ∀ (cs : List RTreeNode) (i : Nat) (st : Option (Nat × Nat) × ℚ),
      all.drop i = cs → SeedsGood all st → SeedsBound all st i 0 →
      SeedsGood all (findSeedsOuter cs i st) ∧
        ∀ (a b : Nat) (ca cb : RTreeNode), a < b → all[a]? = some ca →
          all[b]? = some cb → calcDistance ca.rect cb.rect ≤ (findSeedsOuter cs i st).2 := by
  intro cs
  induction cs with
  | nil =>
    intro i st hdrop hgood hbound
    rw [findSeedsOuter]
    refine ⟨hgood, ?_⟩
    intro a b ca cb hab ha hb
    have hlen : all.length ≤ i := List.drop_eq_nil_iff.1 hdrop
    have hb1 : b < all.length := (List.getElem?_eq_some.1 hb).1
    exact hbound a b ca cb hab ha hb (Or.inl (by omega))
  | cons c cs ih =>
    intro i st hdrop hgood hbound
    obtain ⟨hi, hdrop1⟩ := drop_cons_inv all i c cs hdrop
    rw [findSeedsOuter]
    have hb1 : SeedsBound all st i (i + 1) := by
      intro a b ca cb hab ha hb hlt
      rcases hlt with h | ⟨h1, h2⟩
      · exact hbound a b ca cb hab ha hb (Or.inl h)
      · omega
    obtain ⟨g1, b1⟩ := findSeedsInner_spec all i c hi cs (i + 1) st hdrop1 (by omega) hgood hb1
    exact ih (i + 1) _ hdrop1 g1 b1

/-- What `findSeeds` computes: when it assigns the seeds, they are two indices
`seed1 < seed2` of children whose distance is positive and at least the distance of every
pair of children. -/
theorem findSeeds_some (cs : List RTreeNode) (s1 s2 : Nat)
    (h : findSeeds cs = some (s1, s2)) :
    s1 < s2 ∧ ∃ c1 c2, cs[s1]? = some c1 ∧ cs[s2]? = some c2 ∧
      0 < calcDistance c1.rect c2.rect ∧
      ∀ (a b : Nat) (ca cb : RTreeNode), a < b → cs[a]? = some ca → cs[b]? = some cb →
        calcDistance ca.rect cb.rect ≤ calcDistance c1.rect c2.rect := by
  obtain ⟨hgood, hbound⟩ := findSeedsOuter_spec cs cs 0 (none, 0) rfl
    (by simp [SeedsGood]) (by intro a b ca cb _ _ _ hlt; omega)
  unfold findSeeds at h
  simp only [SeedsGood, h] at hgood
  obtain ⟨h12, c1, c2, e1, e2, ed, hpos⟩ := hgood
  refine ⟨h12, c1, c2, e1, e2, by rw [ed]; exact hpos, ?_⟩
  intro a b ca cb hab ha hb
  rw [ed]
  exact hbound a b ca cb hab ha hb

/-- When `findSeeds` leaves the seeds unassigned, every pair of children has distance 0. -/
theorem findSeeds_none (cs : List RTreeNode) (h : findSeeds cs = none) :
    ∀ (a b : Nat) (ca cb : RTreeNode), a < b → cs[a]? = some ca → cs[b]? = some cb →
      calcDistance ca.rect cb.rect = 0 := by
  obtain ⟨hgood, hbound⟩ := findSeedsOuter_spec cs cs 0 (none, 0) rfl
    (by simp [SeedsGood]) (by intro a b ca cb _ _ _ hlt; omega)
  unfold findSeeds at h
  simp only [SeedsGood, h] at hgood
  intro a b ca cb hab ha hb
  have := hbound a b ca cb hab ha hb
  rw [hgood] at this
  exact le_antisymm this (calcDistance_nonneg _ _)

/-- When every pair of children has distance 0, `findSeeds` leaves the seeds unassigned. -/
theorem findSeeds_eq_none_of_zero (cs : List RTreeNode)
    (h : ∀ (a b : Nat) (ca cb : RTreeNode), a < b → cs[a]? = some ca → cs[b]? = some cb →
      calcDistance ca.rect cb.rect = 0) :
    findSeeds cs = none := by
  cases hs : findSeeds cs with
  | none => rfl
  | some s =>
    obtain ⟨s1, s2⟩ := s
    obtain ⟨h12, c1, c2, e1, e2, hpos, _⟩ := findSeeds_some cs s1 s2 hs
    rw [h s1 s2 c1 c2 h12 e1 e2] at hpos
    exact absurd hpos (lt_irrefl _)

/-! ## Split of a node with exactly `maxChildren + 1` children -/

theorem splitLoop_dump (mc : Int) (nodeRect newRect : Rect) (fuel : Nat)
    (cs : List RTreeNode) (hne : cs ≠ []) (hlen : cs.length = sizeT (mc + 1)) :
    splitLoop mc nodeRect newRect (fuel + 1) cs [] = some ([], cs) := by
  rw [splitLoop]
  have he : cs.isEmpty = false := by
    cases cs with
    | nil => exact absurd rfl hne
    | cons _ _ => rfl
  simp [he, hlen]

/-- What `splitNode` does to a node with exactly `maxChildren + 1` children and a fresh
sibling, when `findSeeds` assigns the seeds: the first test of the loop (line 84) moves
all children to the sibling. -/
theorem splitNode_at_capacity (mc : Int) (fuel : Nat) (node : RTreeNode) (r0 : Rect)
    (s1 s2 : Nat) (hs : findSeeds node.children = some (s1, s2))
    (hlen : node.children.length = sizeT (mc + 1)) :
    ∃ c1 c2, node.children[s1]? = some c1 ∧ node.children[s2]? = some c2 ∧
      splitNode mc (fuel + 1) node (.mk r0 []) =
        some (.mk c1.rect [], .mk c2.rect node.children) := by
  obtain ⟨_, c1, c2, e1, e2, _, _⟩ := findSeeds_some node.children s1 s2 hs
  refine ⟨c1, c2, e1, e2, ?_⟩
  have hne : node.children ≠ [] := by
    intro h
    rw [h] at e1
    simp at e1
  simp only [splitNode, hs, e1, e2, children_mk,
    splitLoop_dump mc c1.rect c2.rect fuel node.children hne hlen]

/-! ## The claims, continued -/

/-- C11 (rectangles are validated) does not hold of the code: the rectangle `(1,1,0,0)`,
with `minX > maxX` and `minY > maxY`, is built, `insert` returns and stores it unchanged
as the root leaf, `search((0,0,1,1))` returns it with its coordinates as given, and
`search` with the malformed query `(1,1,0,0)` returns as well (the empty sequence). -/
theorem C11_malformed_rect_accepted :
    ¬ (⟨1, 1, 0, 0⟩ : Rect).wellFormed ∧
      (RTree.new 2).insert 0 ⟨1, 1, 0, 0⟩ = some ⟨some (.mk ⟨1, 1, 0, 0⟩ []), 2⟩ ∧
      RTree.search ⟨some (.mk ⟨1, 1, 0, 0⟩ []), 2⟩ ⟨0, 0, 1, 1⟩ = [⟨1, 1, 0, 0⟩] ∧
      RTree.search ⟨some (.mk ⟨1, 1, 0, 0⟩ []), 2⟩ ⟨1, 1, 0, 0⟩ = [] := by
  refine ⟨?_, by simp [RTree.insert, RTree.new], ?_, ?_⟩
  · norm_num [Rect.wellFormed]
  · norm_num [RTree.search, searchRect, rectOverlap]
  · norm_num [RTree.search, searchRect, rectOverlap]

/-- C11 as amended: rectangles are not validated.  For `2 <= maxChildren` (an `int`) and
any tree within capacity, `insert(r)` returns (given fuel for the depth of the tree) for
every rectangle `r`, well formed or not, and `r` itself, with its four coordinates
unchanged, is a leaf of the resulting tree. -/
theorem C11_rect_stored_as_is (mc : Int) (h2 : 2 ≤ mc) (hmax : mc ≤ 2147483647)
    (t : RTree) (hmc : t.maxChildren = mc) (hcap : t.capacityOK = true) (r : Rect)
    (fuel : Nat) (hd : t.depth ≤ fuel) :
    ∃ t1, t.insert fuel r = some t1 ∧ r ∈ t1.leafRects := by
  subst hmc
  rw [t.capacityOK_eq_treeNoOverflow (by omega) hmax] at hcap
  refine ⟨_, insert_of_noOverflow t r fuel (exceeds_one _ (by omega) hmax) hcap hd, ?_⟩
  cases t with
  | mk root mc =>
    cases root with
    | none => simp [RTree.leafRects, leafRects_leaf]
    | some root =>
      simp only [RTree.leafRects]
      exact insertPure_mem_leafRects r fuel root (by simpa [RTree.depth] using hd)

/-- Witness of C11 as amended: the malformed `(5,5,4,4)` inserted into a root with one
leaf child, `maxChildren = 2`. -/
theorem C11_rect_stored_as_is_witness :
    ∃ t1, RTree.insert 2 ⟨some (.mk ⟨0, 0, 1, 1⟩ [.mk ⟨2, 2, 3, 3⟩ []]), 2⟩ ⟨5, 5, 4, 4⟩
        = some t1 ∧ (⟨5, 5, 4, 4⟩ : Rect) ∈ t1.leafRects :=
  C11_rect_stored_as_is 2 (by decide) (by decide)
    ⟨some (.mk ⟨0, 0, 1, 1⟩ [.mk ⟨2, 2, 3, 3⟩ []]), 2⟩ rfl
    (by simp [RTree.capacityOK, capacityOK, nodes, nodesList]) ⟨5, 5, 4, 4⟩ 2
    (by simp [RTree.depth, depth, depthList])

/-- C12 (split size postcondition) does not hold of the code.  With `maxChildren = 2`, a
node with the three leaf children `(0,0,1,1)`, `(2,2,3,3)`, `(4,4,5,5)` (the first two at
distance `2`) and a fresh sibling: `splitNode` returns with the node holding no child and
the sibling holding all three, which is more than `maxChildren`. -/
theorem C12_split_moves_all_children (fuel : Nat) :
    calcDistance ⟨0, 0, 1, 1⟩ ⟨2, 2, 3, 3⟩ = 2 ∧
      splitNode 2 (fuel + 1)
          (.mk ⟨0, 0, 5, 5⟩ [.mk ⟨0, 0, 1, 1⟩ [], .mk ⟨2, 2, 3, 3⟩ [], .mk ⟨4, 4, 5, 5⟩ []])
          (.mk ⟨0, 0, 0, 0⟩ []) =
        some (.mk ⟨0, 0, 1, 1⟩ [],
          .mk ⟨4, 4, 5, 5⟩
            [.mk ⟨0, 0, 1, 1⟩ [], .mk ⟨2, 2, 3, 3⟩ [], .mk ⟨4, 4, 5, 5⟩ []]) ∧
      exceeds 3 2 = true := by
  have hs : findSeeds
      [.mk ⟨0, 0, 1, 1⟩ [], .mk ⟨2, 2, 3, 3⟩ [], .mk ⟨4, 4, 5, 5⟩ []] = some (0, 2) := by
    norm_num [findSeeds, findSeedsOuter, findSeedsInner, calcDistance]
  refine ⟨?_, ?_, ?_⟩
  · norm_num [calcDistance]
  · obtain ⟨c1, c2, e1, e2, h⟩ := splitNode_at_capacity 2 fuel
      (.mk ⟨0, 0, 5, 5⟩ [.mk ⟨0, 0, 1, 1⟩ [], .mk ⟨2, 2, 3, 3⟩ [], .mk ⟨4, 4, 5, 5⟩ []])
      ⟨0, 0, 0, 0⟩ 0 2 hs (by decide)
    simp only [children_mk, List.getElem?_cons_zero, List.getElem?_cons_succ,
      Option.some.injEq] at e1 e2
    subst e1 e2
    exact h
  · decide

/-- C13 (split bounds postcondition) does not hold of the code.  On the input of C12 the
node ends with rect `(0,0,1,1)` (the rect of seed 1) and no children, and the sibling
ends with rect `(4,4,5,5)` (the rect of seed 2) while the union of the rects of its
children is `(0,0,5,5)`. -/
theorem C13_split_rects_are_seed_rects (fuel : Nat) :
    ∃ n s, splitNode 2 (fuel + 1)
          (.mk ⟨0, 0, 5, 5⟩ [.mk ⟨0, 0, 1, 1⟩ [], .mk ⟨2, 2, 3, 3⟩ [], .mk ⟨4, 4, 5, 5⟩ []])
          (.mk ⟨0, 0, 0, 0⟩ []) = some (n, s) ∧
      n.rect = ⟨0, 0, 1, 1⟩ ∧ unionRects n.children = none ∧
      s.rect = ⟨4, 4, 5, 5⟩ ∧ unionRects s.children = some ⟨0, 0, 5, 5⟩ := by
  refine ⟨.mk ⟨0, 0, 1, 1⟩ [],
    .mk ⟨4, 4, 5, 5⟩ [.mk ⟨0, 0, 1, 1⟩ [], .mk ⟨2, 2, 3, 3⟩ [], .mk ⟨4, 4, 5, 5⟩ []],
    ?_, rfl, rfl, rfl, ?_⟩
  · have hs : findSeeds
        [.mk ⟨0, 0, 1, 1⟩ [], .mk ⟨2, 2, 3, 3⟩ [], .mk ⟨4, 4, 5, 5⟩ []] = some (0, 2) := by
      norm_num [findSeeds, findSeedsOuter, findSeedsInner, calcDistance]
    obtain ⟨c1, c2, e1, e2, h⟩ := splitNode_at_capacity 2 fuel
      (.mk ⟨0, 0, 5, 5⟩ [.mk ⟨0, 0, 1, 1⟩ [], .mk ⟨2, 2, 3, 3⟩ [], .mk ⟨4, 4, 5, 5⟩ []])
      ⟨0, 0, 0, 0⟩ 0 2 hs (by decide)
    simp only [children_mk, List.getElem?_cons_zero, List.getElem?_cons_succ,
      Option.some.injEq] at e1 e2
    subst e1 e2
    exact h
  · norm_num [unionRects, mergeRects]

/-- C14 (seed selection) does not hold of the code for children that all overlap.  For a
node with the two overlapping children `(0,0,2,2)` and `(1,1,3,3)`, at distance `0`,
`findSeeds` assigns neither `seed1` nor `seed2`, and `splitNode`, which reads them, has no
defined result. -/
theorem C14_seeds_unassigned (fuel : Nat) :
    calcDistance ⟨0, 0, 2, 2⟩ ⟨1, 1, 3, 3⟩ = 0 ∧
      findSeeds [.mk ⟨0, 0, 2, 2⟩ [], .mk ⟨1, 1, 3, 3⟩ []] = none ∧
      splitNode 1 fuel (.mk ⟨0, 0, 3, 3⟩ [.mk ⟨0, 0, 2, 2⟩ [], .mk ⟨1, 1, 3, 3⟩ []])
        (.mk ⟨0, 0, 0, 0⟩ []) = none := by
  have h : findSeeds [.mk ⟨0, 0, 2, 2⟩ [], .mk ⟨1, 1, 3, 3⟩ []] = none := by
    norm_num [findSeeds, findSeedsOuter, findSeedsInner, calcDistance]
  refine ⟨?_, h, ?_⟩
  · norm_num [calcDistance]
  · simp [splitNode, h]

/-- C15 (search is exact under containment): on any tree in which the rect of every node
contains the rects of all leaves below it, `searchRect` started at the root with an
empty result list returns exactly the leaf rects that overlap the query, each leaf once,
in left-to-right (depth-first) order. -/
theorem C15_search_exact (root : RTreeNode) (q : Rect)
    (hcont : containmentOK root = true) :
    searchRect root q [] = (leafRects root).filter (fun l => rectOverlap l q) :=
  searchRect_eq_filter q root hcont

/-- Witness of C15: a root with a leaf child and an inner child holding two leaves. -/
theorem C15_search_exact_witness :
    searchRect
        (.mk ⟨0, 0, 5, 5⟩
          [.mk ⟨0, 0, 1, 1⟩ [],
            .mk ⟨2, 2, 5, 5⟩ [.mk ⟨2, 2, 3, 3⟩ [], .mk ⟨4, 4, 5, 5⟩ []]])
        ⟨3, 3, 4, 4⟩ [] =
      (leafRects
        (.mk ⟨0, 0, 5, 5⟩
          [.mk ⟨0, 0, 1, 1⟩ [],
            .mk ⟨2, 2, 5, 5⟩ [.mk ⟨2, 2, 3, 3⟩ [], .mk ⟨4, 4, 5, 5⟩ []]])).filter
        (fun l => rectOverlap l ⟨3, 3, 4, 4⟩) :=
  C15_search_exact _ _
    (by norm_num [containmentOK, nodes, nodesList, leafRects, rectContains])

/-- C16 (enlargement ranks like the area delta) does not hold of the code.  For the
well-formed `a = (100,0,101,1)`, `b = (0,0,1,1)` and candidate `r = (0,0,1,1)`,
`calcEnlargement(a, r) = -103 < -3 = calcEnlargement(b, r)`, yet absorbing `r` costs `a`
an additional area of `100` and `b` none; the child-choice loop of `insertRect` on the
children `[b, a]` picks index `1`, the child `a`. -/
theorem C16_enlargement_misranks :
    (⟨100, 0, 101, 1⟩ : Rect).wellFormed ∧ (⟨0, 0, 1, 1⟩ : Rect).wellFormed ∧
      calcEnlargement ⟨100, 0, 101, 1⟩ ⟨0, 0, 1, 1⟩ = -103 ∧
      calcEnlargement ⟨0, 0, 1, 1⟩ ⟨0, 0, 1, 1⟩ = -3 ∧
      area (mergeRects ⟨100, 0, 101, 1⟩ ⟨0, 0, 1, 1⟩) - area ⟨100, 0, 101, 1⟩ = 100 ∧
      area (mergeRects ⟨0, 0, 1, 1⟩ ⟨0, 0, 1, 1⟩) - area ⟨0, 0, 1, 1⟩ = 0 ∧
      chooseChild [.mk ⟨0, 0, 1, 1⟩ [], .mk ⟨100, 0, 101, 1⟩ []] ⟨0, 0, 1, 1⟩ = 1 := by
  refine ⟨?_, ?_, ?_, ?_, ?_, ?_, ?_⟩
  · norm_num [Rect.wellFormed]
  · norm_num [Rect.wellFormed]
  · norm_num [calcEnlargement]
  · norm_num [calcEnlargement]
  · norm_num [area, mergeRects]
  · norm_num [area, mergeRects]
  · norm_num [chooseChild, chooseLoop, calcEnlargement, DBL_MAX]

/-- C17 (`mergeRects` is the least bounding rectangle): `mergeRects(a, b)` contains `a`
and `b`, and every rectangle that contains both `a` and `b` contains `mergeRects(a, b)`. -/
theorem C17_mergeRects_least (a b : Rect) :
    rectContains (mergeRects a b) a = true ∧ rectContains (mergeRects a b) b = true ∧
      ∀ c : Rect, rectContains c a = true → rectContains c b = true →
        rectContains c (mergeRects a b) = true := by
  simp only [rectContains, mergeRects, Bool.and_eq_true, decide_eq_true_eq]
  refine ⟨⟨⟨⟨min_le_left _ _, min_le_left _ _⟩, le_max_left _ _⟩, le_max_left _ _⟩,
    ⟨⟨⟨min_le_right _ _, min_le_right _ _⟩, le_max_right _ _⟩, le_max_right _ _⟩, ?_⟩
  rintro c ⟨⟨⟨h1, h2⟩, h3⟩, h4⟩ ⟨⟨⟨k1, k2⟩, k3⟩, k4⟩
  exact ⟨⟨⟨le_min h1 k1, le_min h2 k2⟩, max_le h3 k3⟩, max_le h4 k4⟩

/-- Witness of C17 with `a = (0,0,1,1)`, `b = (2,2,3,3)` and `c = (-1,-1,4,4)`. -/
theorem C17_mergeRects_least_witness :
    rectContains (mergeRects ⟨0, 0, 1, 1⟩ ⟨2, 2, 3, 3⟩) ⟨0, 0, 1, 1⟩ = true ∧
      rectContains (mergeRects ⟨0, 0, 1, 1⟩ ⟨2, 2, 3, 3⟩) ⟨2, 2, 3, 3⟩ = true ∧
      rectContains ⟨-1, -1, 4, 4⟩ (mergeRects ⟨0, 0, 1, 1⟩ ⟨2, 2, 3, 3⟩) = true :=
  ⟨(C17_mergeRects_least ⟨0, 0, 1, 1⟩ ⟨2, 2, 3, 3⟩).1,
    (C17_mergeRects_least ⟨0, 0, 1, 1⟩ ⟨2, 2, 3, 3⟩).2.1,
    (C17_mergeRects_least ⟨0, 0, 1, 1⟩ ⟨2, 2, 3, 3⟩).2.2 ⟨-1, -1, 4, 4⟩
      (by norm_num [rectContains]) (by norm_num [rectContains])⟩

/-- C18 (`rectOverlap` decides closed-rectangle intersection): for well-formed `a` and
`b`, `rectOverlap(a, b)` is true exactly when some point lies in both closed
rectangles. -/
theorem C18_rectOverlap_iff_common_point (a b : Rect) (ha : a.wellFormed)
    (hb : b.wellFormed) :
    rectOverlap a b = true ↔ ∃ x y : ℚ, a.hasPoint x y ∧ b.hasPoint x y := by
  obtain ⟨hax, hay⟩ := ha
  obtain ⟨hbx, hby⟩ := hb
  simp only [rectOverlap, Rect.hasPoint, Bool.and_eq_true, decide_eq_true_eq, ge_iff_le]
  constructor
  · rintro ⟨⟨⟨h1, h2⟩, h3⟩, h4⟩
    exact ⟨max a.minX b.minX, max a.minY b.minY,
      ⟨le_max_left _ _, max_le hax h2, le_max_left _ _, max_le hay h4⟩,
      ⟨le_max_right _ _, max_le h1 hbx, le_max_right _ _, max_le h3 hby⟩⟩
  · rintro ⟨x, y, ⟨h1, h2, h3, h4⟩, ⟨k1, k2, k3, k4⟩⟩
    exact ⟨⟨⟨le_trans h1 k2, le_trans k1 h2⟩, le_trans h3 k4⟩, le_trans k3 h4⟩

/-- Witness of C18: two unit squares that touch only at the corner `(1,1)`. -/
theorem C18_rectOverlap_iff_common_point_witness :
    rectOverlap ⟨0, 0, 1, 1⟩ ⟨1, 1, 2, 2⟩ = true ↔
      ∃ x y : ℚ, (⟨0, 0, 1, 1⟩ : Rect).hasPoint x y ∧ (⟨1, 1, 2, 2⟩ : Rect).hasPoint x y :=
  C18_rectOverlap_iff_common_point ⟨0, 0, 1, 1⟩ ⟨1, 1, 2, 2⟩
    (by norm_num [Rect.wellFormed]) (by norm_num [Rect.wellFormed])

/-- C19 (`calcDistance` is the squared Euclidean gap) does not hold of the code, because
each operation of the formula rounds to a double.  For the one-point rectangles
`a = (0,0,0,0)` and `b = (134217729, 1.5, 134217729, 1.5)` the product
`134217729 * 134217729 = 18014398777917441` rounds to `18014398777917440`, the sum with
`2.25` rounds to `18014398777917444`, and this value of `calcDistance(a, b)` is larger than
the squared distance `18014398777917443.25` of every point of `a` from every point of
`b`. -/
theorem C19_rounding_exceeds_gap :
    (⟨0, 0, 0, 0⟩ : Rect).wellFormed ∧
      (⟨134217729, 3 / 2, 134217729, 3 / 2⟩ : Rect).wellFormed ∧
      calcDistance ⟨0, 0, 0, 0⟩ ⟨134217729, 3 / 2, 134217729, 3 / 2⟩ = 18014398777917444 ∧
      ∀ px py qx qy : ℚ, (⟨0, 0, 0, 0⟩ : Rect).hasPoint px py →
        (⟨134217729, 3 / 2, 134217729, 3 / 2⟩ : Rect).hasPoint qx qy →
        (px - qx) ^ 2 + (py - qy) ^ 2 <
          calcDistance ⟨0, 0, 0, 0⟩ ⟨134217729, 3 / 2, 134217729, 3 / 2⟩ := by
  have hA : fl (-(3 / 2)) = -(3 / 2) :=
    fl_exact_neg (3 / 2) 0 (3 * 2 ^ 51) (by norm_num) (by norm_num) (by norm_num)
      (by norm_num)
  have hB : fl (3 / 2) = 3 / 2 :=
    fl_exact (3 / 2) 0 (3 * 2 ^ 51) (by norm_num) (by norm_num) (by norm_num) (by norm_num)
  have hC : fl 18014398777917441 = 18014398777917440 := by
    rw [fl_eq _ 54 (by norm_num) (by norm_num) (by norm_num),
      roundHalfEven_of_lt _ 4503599694479360 (by norm_num) (by norm_num)]
    norm_num
  have hD : fl (9 / 4) = 9 / 4 :=
    fl_exact (9 / 4) 1 (9 * 2 ^ 49) (by norm_num) (by norm_num) (by norm_num) (by norm_num)
  have hE : fl (18014398777917440 + 9 / 4) = 18014398777917444 := by
    rw [fl_eq _ 54 (by norm_num) (by norm_num) (by norm_num),
      roundHalfEven_of_gt _ 4503599694479361 (by norm_num) (by norm_num)]
    norm_num
  have hval : calcDistance ⟨0, 0, 0, 0⟩ ⟨134217729, 3 / 2, 134217729, 3 / 2⟩ =
      18014398777917444 := by
    have hdx : max (0 : ℚ) (max (fl (0 - 134217729)) (fl (134217729 - 0))) = 134217729 := by
      norm_num
    have hdy : max (0 : ℚ) (max (fl (0 - 3 / 2)) (fl (3 / 2 - 0))) = 3 / 2 := by
      have e1 : (0 : ℚ) - 3 / 2 = -(3 / 2) := by norm_num
      have e2 : (3 : ℚ) / 2 - 0 = 3 / 2 := by norm_num
      rw [e1, e2, hA, hB]
      norm_num
    have hxx : (134217729 : ℚ) * 134217729 = 18014398777917441 := by norm_num
    have hyy : (3 : ℚ) / 2 * (3 / 2) = 9 / 4 := by norm_num
    simp only [calcDistance, hdx, hdy, hxx, hyy, hC, hD, hE]
  refine ⟨by norm_num [Rect.wellFormed], by norm_num [Rect.wellFormed], hval, ?_⟩
  rintro px py qx qy ⟨h1, h2, h3, h4⟩ ⟨k1, k2, k3, k4⟩
  rw [hval]
  simp only at h1 h2 h3 h4 k1 k2 k3 k4
  have e1 : px = 0 := le_antisymm h2 h1
  have e2 : py = 0 := le_antisymm h4 h3
  have e3 : qx = 134217729 := le_antisymm k2 k1
  have e4 : qy = 3 / 2 := le_antisymm k4 k3
  subst e1 e2 e3 e4
  norm_num

theorem calcDistance_of_exact (a b : Rect) (h : calcDistanceExact a b) :
    calcDistance a b =
      max 0 (max (a.minX - b.maxX) (b.minX - a.maxX)) *
          max 0 (max (a.minX - b.maxX) (b.minX - a.maxX)) +
        max 0 (max (a.minY - b.maxY) (b.minY - a.maxY)) *
          max 0 (max (a.minY - b.maxY) (b.minY - a.maxY)) := by
  obtain ⟨⟨e1, -⟩, ⟨e2, -⟩, ⟨e3, -⟩, ⟨e4, -⟩, ⟨e5, -⟩, ⟨e6, -⟩, ⟨e7, -⟩⟩ := h
  simp only [calcDistance]
  rw [e1, e2, e3, e4, e5, e6, e7]

/-- C19 as amended: `calcDistance` is the squared Euclidean gap up to the rounding of its
operations.  For well-formed `a` and `b`, `calcDistance(a, b)` is `0` when
`rectOverlap(a, b)` holds; and when none of its seven operations rounds, it is at most the
squared distance between any point of `a` and any point of `b` and equals that squared
distance for some such pair of points. -/
theorem C19_calcDistance_gap_when_exact (a b : Rect) (ha : a.wellFormed)
    (hb : b.wellFormed) :
    (rectOverlap a b = true → calcDistance a b = 0) ∧
      (calcDistanceExact a b →
        (∀ px py qx qy : ℚ, a.hasPoint px py → b.hasPoint qx qy →
          calcDistance a b ≤ (px - qx) ^ 2 + (py - qy) ^ 2) ∧
        (∃ px py qx qy : ℚ, a.hasPoint px py ∧ b.hasPoint qx qy ∧
          calcDistance a b = (px - qx) ^ 2 + (py - qy) ^ 2)) := by
  obtain ⟨hax, hay⟩ := ha
  obtain ⟨hbx, hby⟩ := hb
  constructor
  · intro hov
    simp only [rectOverlap, Bool.and_eq_true, decide_eq_true_eq, ge_iff_le] at hov
    obtain ⟨⟨⟨h1, h2⟩, h3⟩, h4⟩ := hov
    simp only [calcDistance]
    rw [max_eq_left (max_le (fl_nonpos _ (by linarith)) (fl_nonpos _ (by linarith))),
      max_eq_left (max_le (fl_nonpos _ (by linarith)) (fl_nonpos _ (by linarith)))]
    simp
  · intro hex
    rw [calcDistance_of_exact a b hex]
    constructor
    · rintro px py qx qy ⟨h1, h2, h3, h4⟩ ⟨k1, k2, k3, k4⟩
      exact add_le_add (gap_sq_le _ _ _ _ px qx h1 h2 k1 k2)
        (gap_sq_le _ _ _ _ py qy h3 h4 k3 k4)
    · obtain ⟨px, qx, h1, h2, k1, k2, ex⟩ :=
        gap_sq_attained a.minX a.maxX b.minX b.maxX hax hbx
      obtain ⟨py, qy, h3, h4, k3, k4, ey⟩ :=
        gap_sq_attained a.minY a.maxY b.minY b.maxY hay hby
      exact ⟨px, py, qx, qy, ⟨h1, h2, h3, h4⟩, ⟨k1, k2, k3, k4⟩, by rw [ex, ey]⟩

/-- Witness of C19 as amended with `a = (0,0,1,1)` and `b = (3,5,4,6)`, whose differences,
products and sum are small integers. -/
theorem C19_calcDistance_gap_when_exact_witness :
    (rectOverlap ⟨0, 0, 1, 1⟩ ⟨3, 5, 4, 6⟩ = true →
        calcDistance ⟨0, 0, 1, 1⟩ ⟨3, 5, 4, 6⟩ = 0) ∧
      (∀ px py qx qy : ℚ, (⟨0, 0, 1, 1⟩ : Rect).hasPoint px py →
        (⟨3, 5, 4, 6⟩ : Rect).hasPoint qx qy →
        calcDistance ⟨0, 0, 1, 1⟩ ⟨3, 5, 4, 6⟩ ≤ (px - qx) ^ 2 + (py - qy) ^ 2) ∧
      (∃ px py qx qy : ℚ, (⟨0, 0, 1, 1⟩ : Rect).hasPoint px py ∧
        (⟨3, 5, 4, 6⟩ : Rect).hasPoint qx qy ∧
        calcDistance ⟨0, 0, 1, 1⟩ ⟨3, 5, 4, 6⟩ = (px - qx) ^ 2 + (py - qy) ^ 2) :=
  ⟨(C19_calcDistance_gap_when_exact ⟨0, 0, 1, 1⟩ ⟨3, 5, 4, 6⟩
      (by norm_num [Rect.wellFormed]) (by norm_num [Rect.wellFormed])).1,
    (C19_calcDistance_gap_when_exact ⟨0, 0, 1, 1⟩ ⟨3, 5, 4, 6⟩
      (by norm_num [Rect.wellFormed]) (by norm_num [Rect.wellFormed])).2
      (by norm_num [calcDistanceExact, isDouble, DBL_MAX])⟩

/-- C20 (degenerate shape): for `1 <= maxChildren` (an `int`) and every non-empty
sequence of rectangles inserted into an empty tree, the inserts return (given fuel for
the depth of the tree) with the same tree as the inserts without the split branch, every
node has at most one child, the tree has as many nodes as rectangles were inserted, its
only leaf holds the last rectangle, and `search(q)` returns either the empty sequence or
exactly that last rectangle. -/
theorem C20_chain_shape (mc : Int) (h1 : 1 ≤ mc) (hmax : mc ≤ 2147483647)
    (rects : List Rect) (hne : rects ≠ []) (fuel : Nat) (hfuel : rects.length ≤ fuel + 1)
    (q : Rect) :
    ∃ root, insertAll fuel (RTree.new mc) rects = some ⟨some root, mc⟩ ∧
      insertAllNoSplit fuel (RTree.new mc) rects = ⟨some root, mc⟩ ∧
      (∀ n ∈ nodes root, n.children.length ≤ 1) ∧
      (nodes root).length = rects.length ∧
      leafRects root = [rects.getLast hne] ∧
      (RTree.search ⟨some root, mc⟩ q = [] ∨
        RTree.search ⟨some root, mc⟩ q = [rects.getLast hne]) := by
  cases rects with
  | nil => exact absurd rfl hne
  | cons r rs =>
    simp only [List.length_cons] at hfuel
    obtain ⟨root, e1, e2, e3, e4, e5⟩ :=
      insertAll_chain mc (exceeds_one mc h1 hmax) fuel rs (.mk r []) r 1
        (by simp [isChain, nodes_mk, nodesList]) (by simp [depth_mk, depthList])
        (by simp [nodes_mk, nodesList]) (leafRects_leaf r) (by omega)
    refine ⟨root, ?_, ?_, (isChain_iff root).1 e3, ?_, e5, ?_⟩
    · simpa [insertAll, RTree.insert, RTree.new] using e1
    · simpa [insertAllNoSplit, RTree.insertNoSplit, RTree.new] using e2
    · simp only [List.length_cons]
      omega
    · have hs := searchRect_sublist q root
      rw [e5] at hs
      exact sublist_singleton _ _ hs

/-- Witness of C20: the three rectangles of the demonstration program, `maxChildren = 1`. -/
theorem C20_chain_shape_witness :
    ∃ root, insertAll 2 (RTree.new 1) [⟨0, 0, 1, 1⟩, ⟨2, 2, 3, 3⟩, ⟨4, 4, 5, 5⟩]
        = some ⟨some root, 1⟩ ∧
      insertAllNoSplit 2 (RTree.new 1) [⟨0, 0, 1, 1⟩, ⟨2, 2, 3, 3⟩, ⟨4, 4, 5, 5⟩]
        = ⟨some root, 1⟩ ∧
      (∀ n ∈ nodes root, n.children.length ≤ 1) ∧
      (nodes root).length = [(⟨0, 0, 1, 1⟩ : Rect), ⟨2, 2, 3, 3⟩, ⟨4, 4, 5, 5⟩].length ∧
      leafRects root =
        [[(⟨0, 0, 1, 1⟩ : Rect), ⟨2, 2, 3, 3⟩, ⟨4, 4, 5, 5⟩].getLast
          (List.cons_ne_nil _ _)] ∧
      (RTree.search ⟨some root, 1⟩ ⟨2, 2, 5, 5⟩ = [] ∨
        RTree.search ⟨some root, 1⟩ ⟨2, 2, 5, 5⟩ =
          [[(⟨0, 0, 1, 1⟩ : Rect), ⟨2, 2, 3, 3⟩, ⟨4, 4, 5, 5⟩].getLast
            (List.cons_ne_nil _ _)]) :=
  C20_chain_shape 1 (by decide) (by decide) [⟨0, 0, 1, 1⟩, ⟨2, 2, 3, 3⟩, ⟨4, 4, 5, 5⟩]
    (List.cons_ne_nil _ _) 2 (by decide) ⟨2, 2, 5, 5⟩

end RTreeSpec
